import Mathlib

/-!
# CryptoSSHEye: price history, rendering statistics, number formatting and the stream reader

A shallow embedding of `bubbletea/bubbletea.go`, `utils/format.go` and
`websocket/websocket.go` (the same code is duplicated in `main.go`).

Modelling conventions
* A `float64` handled by the model and by `render` is an `F64`: a finite value
  (a rational), `+Inf`, `-Inf` or NaN. Arithmetic is IEEE 754: the exact result
  rounded to the nearest double, ties to even, overflowing to an infinity;
  comparisons with NaN are false. Negative zero is identified with zero.
* `fmt.Sprintf("%.2f", f)` is the correctly rounded two-decimal rendering of a
  finite value, and `+Inf`, `-Inf`, `NaN` otherwise.
* Go strings are lists of runes (`List Char`); the `for i, c := range s`
  index is the byte offset of the rune, as in Go.
* A runtime panic (index out of range) is `none`.
* `asciigraph.Plot` is outside the repository: it is a parameter `Plot` of
  `render`, and `none` stands for a panic inside it.
* `int` values (the viewport geometry, the `retry` counter) are unbounded
  integers or naturals; none of them comes near the 64-bit range.
* The bubbletea runtime runs each returned command once and hands its message
  to `Update`; Go's `select` takes one of the cases that can proceed.
* The channel model never inspects a sample, it only moves it; its payload is
  a rational.
-/

namespace CryptoSSHEye

/-! ## utils/format.go -/

/-- The rune for a decimal digit `d < 10`. -/
def digitChar (d : Nat) : Char := Char.ofNat (48 + d)

/-- Decimal digits of `n`, most significant first, accumulated in front of `acc`. -/
def natDigitsAux : Nat → Nat → List Char → List Char
  | 0, _, acc => acc
  | fuel + 1, n, acc =>
    if n < 10 then digitChar n :: acc
    else natDigitsAux fuel (n / 10) (digitChar (n % 10) :: acc)

/-- Decimal rendering of a natural number (`0` renders as one digit). -/
def natDigits (n : Nat) : List Char := natDigitsAux (n + 1) n []

/-- Nearest integer to `a / b`, ties to even. -/
def roundHalfEven (a b : Nat) : Nat :=
  let k := a / b
  let r := a % b
  if 2 * r < b then k
  else if b < 2 * r then k + 1
  else if k % 2 = 0 then k else k + 1

/-- Go's `fmt.Sprintf("%.2f", f)` on a finite value: optional minus sign, the
integer digits, a dot and exactly two decimals, correctly rounded. -/
def Sprintf2f (f : ℚ) : List Char :=
  let n := roundHalfEven (f.num.natAbs * 100) f.den
  (if f < 0 then ['-'] else []) ++ natDigits (n / 100) ++
    ['.', digitChar (n % 100 / 10), digitChar (n % 10)]

/-- Go's `strings.Split(s, sep)` for a one-rune separator: the pieces between
the separators, always at least one piece. -/
def Split (sep : Char) : List Char → List (List Char)
  | [] => [[]]
  | c :: cs =>
    if c = sep then [] :: Split sep cs
    else
      match Split sep cs with
      | [] => [[c]]
      | p :: ps => (c :: p) :: ps

/-- The function `reverse`: the runes of `s` in opposite order (the in-place
two-index swap loop over `[]rune(s)`). -/
def reverse (s : List Char) : List Char := s.reverse

/-- The loop `for i, c := range reverse(intPart)` of `FormatFloatWithSpaces`,
followed by `strings.Join(result, "")`: `i` is the byte offset of rune `c`;
a space is emitted before `c` when `i != 0 && i%3 == 0`. -/
def spaceLoop : Nat → List Char → List Char
  | _, [] => []
  | i, c :: cs =>
    (if i ≠ 0 ∧ i % 3 = 0 then [' '] else []) ++ c :: spaceLoop (i + c.utf8Size) cs

/-- The body of `FormatFloatWithSpaces` after `s := fmt.Sprintf("%.2f", f)`:
split at the dots, group the first part, keep the second part.
`none` is the index-out-of-range panic of `parts[1]`. -/
def formatRendered (s : List Char) : Option (List Char) :=
  match Split '.' s with
  | intPart :: decPart :: _ =>
    let intWithSpaces := reverse (spaceLoop 0 (reverse intPart))
    some (intWithSpaces ++ ['.'] ++ decPart)
  | _ => none

/-- The function `FormatFloatWithSpaces`. -/
def FormatFloatWithSpaces (f : ℚ) : Option (List Char) :=
  formatRendered (Sprintf2f f)

/-! ## float64 -/

/-- The constant `math.MaxFloat64`, `(2^53 - 1) * 2^971`. -/
def MaxFloat64 : ℚ := (2 ^ 53 - 1) * 2 ^ 971

/-- A `float64`: a finite value, an infinity, or NaN. -/
inductive F64 where
  | fin (q : ℚ)
  | pinf
  | ninf
  | nan
  deriving DecidableEq

/-- The number of binary digits of `n` (`fuel` bounds the number of halvings). -/
def bitLen : Nat → Nat → Nat
  | 0, _ => 0
  | fuel + 1, n => if n = 0 then 0 else bitLen fuel (n / 2) + 1

/-- Whether `2 ^ e ≤ a / b`. -/
def geTwoPow (a b : Nat) (e : Int) : Bool :=
  if 0 ≤ e then decide (b * 2 ^ e.toNat ≤ a) else decide (b ≤ a * 2 ^ (-e).toNat)

/-- The positive rational `a / b` rounded to 53 significant binary digits, ties
to even: with `e` the binary exponent of `a / b` (at least `-1022`, where the
subnormals start), the nearest multiple of `2 ^ (e - 52)`. -/
def roundedValue (a b : Nat) : ℚ :=
  let e0 : Int := (bitLen a a : Int) - (bitLen b b : Int)
  let e1 : Int := if geTwoPow a b e0 then e0 else e0 - 1
  let e : Int := max e1 (-1022)
  let s : Int := 52 - e
  if 0 ≤ s then (roundHalfEven (a * 2 ^ s.toNat) b : ℚ) / 2 ^ s.toNat
  else (roundHalfEven a (b * 2 ^ (-s).toNat) : ℚ) * 2 ^ (-s).toNat

/-- The double nearest to the positive rational `a / b`, and `+Inf` when that
is beyond `MaxFloat64`. -/
def roundMag (a b : Nat) : F64 :=
  if MaxFloat64 < roundedValue a b then .pinf else .fin (roundedValue a b)

/-- Unary minus. -/
def F64.neg : F64 → F64
  | .fin q => .fin (-q)
  | .pinf => .ninf
  | .ninf => .pinf
  | .nan => .nan

/-- The `float64` result of an operation whose exact result is `q`. -/
def roundF64 (q : ℚ) : F64 :=
  if q = 0 then .fin 0
  else if 0 < q then roundMag q.num.natAbs q.den
  else (roundMag q.num.natAbs q.den).neg

/-- Whether the value is finite (neither an infinity nor NaN). -/
def F64.isFin : F64 → Bool
  | .fin _ => true
  | _ => false

/-- Go's `x < y` on `float64`. -/
def F64.lt : F64 → F64 → Bool
  | .fin a, .fin b => decide (a < b)
  | .fin _, .pinf => true
  | .ninf, .fin _ => true
  | .ninf, .pinf => true
  | _, _ => false

/-- Go's `x == y` on `float64`; `x != y` is its negation. -/
def F64.eq : F64 → F64 → Bool
  | .fin a, .fin b => decide (a = b)
  | .pinf, .pinf => true
  | .ninf, .ninf => true
  | _, _ => false

/-- Go's `x - y` on `float64`. -/
def F64.sub : F64 → F64 → F64
  | .nan, _ => .nan
  | _, .nan => .nan
  | .fin a, .fin b => roundF64 (a - b)
  | .fin _, .pinf => .ninf
  | .fin _, .ninf => .pinf
  | .pinf, .pinf => .nan
  | .pinf, _ => .pinf
  | .ninf, .ninf => .nan
  | .ninf, _ => .ninf

/-- The sign rule for an infinity times or divided by the finite value `a`
(`nonneg` tells whether the infinity is `+Inf`). -/
def F64.signedInf (nonneg : Bool) (a : ℚ) : F64 :=
  if (decide (0 ≤ a)) = nonneg then .pinf else .ninf

/-- Go's `x * y` on `float64`. -/
def F64.mul : F64 → F64 → F64
  | .nan, _ => .nan
  | _, .nan => .nan
  | .fin a, .fin b => roundF64 (a * b)
  | .fin a, .pinf => if a = 0 then .nan else F64.signedInf true a
  | .fin a, .ninf => if a = 0 then .nan else F64.signedInf false a
  | .pinf, .fin b => if b = 0 then .nan else F64.signedInf true b
  | .ninf, .fin b => if b = 0 then .nan else F64.signedInf false b
  | .pinf, .pinf => .pinf
  | .pinf, .ninf => .ninf
  | .ninf, .pinf => .ninf
  | .ninf, .ninf => .pinf

/-- Go's `x / y` on `float64` (a zero divisor is taken as `+0`). -/
def F64.div : F64 → F64 → F64
  | .nan, _ => .nan
  | _, .nan => .nan
  | .fin a, .fin b =>
    if b = 0 then (if a = 0 then .nan else F64.signedInf true a) else roundF64 (a / b)
  | .fin _, _ => .fin 0
  | .pinf, .fin b => F64.signedInf true b
  | .ninf, .fin b => F64.signedInf false b
  | _, _ => .nan

/-- Go's `fmt.Sprintf("%.2f", f)` on any `float64`. -/
def F64.Sprintf2f : F64 → List Char
  | .fin q => CryptoSSHEye.Sprintf2f q
  | .pinf => ['+', 'I', 'n', 'f']
  | .ninf => ['-', 'I', 'n', 'f']
  | .nan => ['N', 'a', 'N']

/-- The function `FormatFloatWithSpaces` on any `float64`; on a finite value it
is `FormatFloatWithSpaces` above, and `none` is the panic of `parts[1]`. -/
def F64.FormatFloatWithSpaces (f : F64) : Option (List Char) :=
  formatRendered f.Sprintf2f

/-! ## bubbletea/bubbletea.go -/

/-- The constant `maxPoints`. -/
def maxPoints : Nat := 1800

/-- The constant `usdtToCzk`. -/
def usdtToCzk : F64 := .fin 21

/-- A sample is a finite double: its value lies between `-MaxFloat64` and `MaxFloat64`. -/
def FiniteSample (x : F64) : Prop := ∃ q, x = .fin q ∧ -MaxFloat64 ≤ q ∧ q ≤ MaxFloat64

/-- The three lipgloss styles `white`, `green`, `red`. -/
inductive Color where
  | white
  | green
  | red
  deriving DecidableEq

/-- The messages `Update` distinguishes: `tea.WindowSizeMsg`, `PriceMsg`,
`StatusMsg`, `tea.KeyMsg` (by its key string), and any other message. -/
inductive Msg where
  | WindowSizeMsg (width height : Int)
  | PriceMsg (v : F64)
  | StatusMsg (s : String)
  | KeyMsg (k : String)
  | other
  deriving DecidableEq

/-- The commands the model returns: `nil`, the closure of `awaitPrice`, `tea.Quit`. -/
inductive Cmd where
  | nil
  | awaitPrice
  | quit
  deriving DecidableEq

/-- What `render` assembles for the chart screen: the arguments it hands to
`asciigraph.Plot` and the graph it gets back, the caption value, and the
values of the three info lines. -/
structure Chart where
  trendColor : Color
  w : Int
  h : Int
  series : List F64
  caption : F64
  graph : List Char
  span : F64
  pct : F64
  usdt : List Char × List Char × List Char
  czk : List Char × List Char × List Char
  deriving DecidableEq

/-- The viewport content set by `vp.SetContent`. -/
inductive Content where
  | empty
  | connecting
  | status (s : String)
  | chart (c : Chart)
  deriving DecidableEq

/-- The fields of `model` that `Update` and `render` read or write (the mutex
is held only inside one call, so it carries no state between calls). -/
structure model where
  prices : List F64
  last : F64
  vpWidth : Int
  vpHeight : Int
  content : Content
  showHelp : Bool
  deriving DecidableEq

/-- The function `InitialModel`. -/
def InitialModel (width height : Int) : model :=
  { prices := [], last := .fin 0, vpWidth := width, vpHeight := height,
    content := .empty, showHelp := false }

/-- The loop of `stats`: `if v < minV` and `if v > maxV` for each element. -/
def statsLoop : List F64 → F64 × F64 → F64 × F64
  | [], acc => acc
  | v :: vs, (minV, maxV) =>
    statsLoop vs (if v.lt minV then v else minV, if maxV.lt v then v else maxV)

/-- The function `stats`. -/
def stats (xs : List F64) : F64 × F64 :=
  if xs.length = 0 then (.fin 0, .fin 0)
  else statsLoop xs (.fin MaxFloat64, .fin (-MaxFloat64))

/-- The trend colour chosen by `render` (lines `trendColor := white ...`):
`m.last > last`, then `m.last < last`, for `last := m.prices[len(m.prices)-2]`. -/
def trendOf (prices : List F64) (last : F64) : Color :=
  if prices.length > 1 then
    let prev := prices.getD (prices.length - 2) (.fin 0)
    if prev.lt last then .green
    else if last.lt prev then .red
    else .white
  else .white

/-- The percent change computed by `render` (lines `pct := 0.0 ...`). -/
def pctOf (prices : List F64) : F64 :=
  if prices.length > 1 ∧ (prices.getD 0 (.fin 0)).eq (.fin 0) = false then
    (((prices.getD (prices.length - 1) (.fin 0)).sub (prices.getD 0 (.fin 0))).div
      (prices.getD 0 (.fin 0))).mul (.fin 100)
  else .fin 0

/-- The three `FormatFloatWithSpaces` calls of one info line. -/
def infoLine (a b c : F64) : Option (List Char × List Char × List Char) := do
  let s1 ← a.FormatFloatWithSpaces
  let s2 ← b.FormatFloatWithSpaces
  let s3 ← c.FormatFloatWithSpaces
  some (s1, s2, s3)

/-- The signature of `asciigraph.Plot` as `render` calls it: the series, the
width, the height, and the colour and value of the caption. -/
abbrev Plotter := List F64 → Int → Int → Color → F64 → Option (List Char)

/-- The method `render`; `none` is a panic, inside `asciigraph.Plot` or inside
`FormatFloatWithSpaces`. -/
def render (Plot : Plotter) (m : model) : Option model :=
  if m.prices.length = 0 then
    some { m with content := .connecting }
  else do
    let trendColor := trendOf m.prices m.last
    let w := max 20 (m.vpWidth - 4)
    let h := max 8 (min 20 (m.vpHeight - 6))
    let graph ← Plot m.prices w h trendColor m.last
    let span := (stats m.prices).2.sub (stats m.prices).1
    let pct := pctOf m.prices
    let usdt ← infoLine m.last (stats m.prices).1 (stats m.prices).2
    let czk ← infoLine (m.last.mul usdtToCzk) ((stats m.prices).1.mul usdtToCzk)
      ((stats m.prices).2.mul usdtToCzk)
    let c : Chart :=
      { trendColor := trendColor, w := w, h := h, series := m.prices, caption := m.last,
        graph := graph, span := span, pct := pct, usdt := usdt, czk := czk }
    some { m with content := .chart c }

/-- The key strings bound to `Quit`. -/
def quitKeys : List String := ["q", "ctrl+c"]

/-- The key strings bound to `Help`. -/
def helpKeys : List String := ["?"]

/-- The locked part of the `PriceMsg` branch of `Update`: `m.last = msg.V`, the
append, and the cut to the last `maxPoints` samples. -/
def appendPrice (m : model) (v : F64) : model :=
  let prices := m.prices ++ [v]
  let prices :=
    if prices.length > maxPoints then prices.drop (prices.length - maxPoints) else prices
  { m with last := v, prices := prices }

/-- The method `Update`: the new model and the command it returns. -/
def Update (Plot : Plotter) (m : model) (msg : Msg) : Option (model × Cmd) :=
  match msg with
  | .WindowSizeMsg width height =>
    some ({ m with vpWidth := width, vpHeight := height }, .nil)
  | .PriceMsg v =>
    (render Plot (appendPrice m v)).map fun m1 => (m1, .awaitPrice)
  | .StatusMsg s =>
    some ({ m with content := .status (s ++ "\n\nPress q to quit.") }, .nil)
  | .KeyMsg k =>
    if k ∈ quitKeys then some (m, .quit)
    else if k ∈ helpKeys then
      (render Plot { m with showHelp := !m.showHelp }).map fun m1 => (m1, .nil)
    else some (m, .nil)
  | .other => some (m, .nil)

/-- The method `Init`. -/
def Init (_m : model) : Cmd := .awaitPrice

/-- The messages of a list that are price samples, in order. -/
def pricesOf : List Msg → List F64
  | [] => []
  | .PriceMsg v :: rest => v :: pricesOf rest
  | _ :: rest => pricesOf rest

/-- The model after `Update` has handled the messages one after another
(`none` if one of the calls panics). -/
def feed (Plot : Plotter) (m : model) : List Msg → Option model
  | [] => some m
  | msg :: rest => (Update Plot m msg).bind fun r => feed Plot r.1 rest

/-- The closure returned by `awaitPrice`, applied to the outcome of the receive
`v, ok := <-m.priceCh`: `none` is `!ok` (channel closed and drained). -/
def awaitPrice (r : Option F64) : Msg :=
  match r with
  | none => .StatusMsg "stream closed"
  | some v => .PriceMsg v

/-- How many receive-next-sample requests a command starts. -/
def receives : Cmd → Nat
  | .awaitPrice => 1
  | _ => 0

/-- One session as the bubbletea runtime drives it: the model, the number of
`awaitPrice` closures that are running and have not yet delivered their
message, whether the closed-channel `StatusMsg` has been handled, and whether
`tea.Quit` has been returned. -/
structure Session where
  m : model
  pending : Nat
  streamClosed : Bool
  quit : Bool
  deriving DecidableEq

/-- What can happen to a session: an outstanding receive completes with
outcome `r`; the terminal is resized; a key is pressed. -/
inductive Event where
  | received (r : Option F64)
  | resize (width height : Int)
  | key (k : String)
  deriving DecidableEq

/-- The session right after the runtime has run `Init`. -/
def Session.start (width height : Int) : Session :=
  let m := InitialModel width height
  { m := m, pending := receives (Init m), streamClosed := false, quit := false }

/-- The runtime hands message `msg` to `Update` and starts the returned command;
`completes` is the number of receives whose result `msg` is. A panic of
`Update` ends the program (`none`). -/
def Session.deliver (Plot : Plotter) (s : Session) (msg : Msg) (completes : Nat)
    (closes : Bool) : Option Session :=
  (Update Plot s.m msg).map fun r =>
    { m := r.1, pending := s.pending - completes + receives r.2,
      streamClosed := s.streamClosed || closes, quit := s.quit || decide (r.2 = .quit) }

/-- One step of the session. After `tea.Quit` the program has ended and nothing
is delivered; a completion is only possible while a receive is outstanding. -/
def Session.step (Plot : Plotter) (s : Session) (e : Event) : Option Session :=
  if s.quit then some s
  else
    match e with
    | .received r =>
      if s.pending = 0 then some s
      else s.deliver Plot (awaitPrice r) 1 r.isNone
    | .resize width height => s.deliver Plot (.WindowSizeMsg width height) 0 false
    | .key k => s.deliver Plot (.KeyMsg k) 0 false

/-- The session after a sequence of events. -/
def Session.run (Plot : Plotter) (s : Session) : List Event → Option Session
  | [] => some s
  | e :: rest => (s.step Plot e).bind fun s1 => s1.run Plot rest

/-! ## websocket/websocket.go -/

/-- The capacity of the sample channel, `make(chan float64, 256)` in `InitWishServer`. -/
def chanCap : Nat := 256

/-- The delay in seconds before the next dial, `min(30, 1<<min(6, retry))`,
for the value of `retry` after its increment. -/
def backoff (retry : Nat) : Nat := min 30 (1 <<< min 6 retry)

/-- Where the goroutine running `WsReader` stands. -/
inductive Phase where
  | dialing
  | sleeping (seconds : Nat)
  | reading
  | returned
  deriving DecidableEq

/-- A case of a `select` statement of `WsReader`. -/
inductive Case where
  | send
  | done
  | timer
  deriving DecidableEq

/-- Go's `select`: of the cases that can proceed one is chosen (pseudo-randomly,
here by `pick`); `none` when no case can proceed. -/
def selectCase (ready : List Case) (pick : Nat) : Option Case :=
  ready.get? (pick % ready.length)

/-- The reader goroutine, its channel and its context, with two history
variables: `offered` lists every sample on which the send `select` was
executed, `observed` every sample the consumer received. -/
structure Sys where
  retry : Nat
  phase : Phase
  cancelled : Bool
  buf : List ℚ
  closed : Bool
  offered : List ℚ
  observed : List ℚ
  deriving DecidableEq

/-- The steps of the system. `dial ok`: `DialContext` returns, without error iff
`ok`. `wake fired pick`: the `select` of the backoff sleep, `fired` telling
whether the timer has expired. `frame none pick`: `ReadMessage` returns an
error. `frame (some r) pick`: it returns a frame, `r` being the price parsed
from it (`none` for malformed JSON or an unparsable number). `cancel`: the
session context is cancelled. `receive`: the consumer's `<-m.priceCh`. -/
inductive Step where
  | dial (ok : Bool)
  | wake (fired : Bool) (pick : Nat)
  | frame (r : Option (Option ℚ)) (pick : Nat)
  | cancel
  | receive
  deriving DecidableEq

/-- The state when `WsReader` starts: `retry := 0`, an empty open channel. -/
def Sys.init : Sys :=
  { retry := 0, phase := .dialing, cancelled := false, buf := [], closed := false,
    offered := [], observed := [] }

/-- The statement `return` of `WsReader`, with its deferred `close(out)`. -/
def Sys.ret (s : Sys) : Sys := { s with phase := .returned, closed := true }

/-- The send `select` of the read loop on sample `v`:
`case out <- v`, `default`, `case <-ctx.Done()`. -/
def sendSelect (s : Sys) (v : ℚ) (pick : Nat) : Sys :=
  let s := { s with offered := s.offered ++ [v] }
  let ready := (if s.buf.length < chanCap then [Case.send] else []) ++
    (if s.cancelled then [Case.done] else [])
  match selectCase ready pick with
  | some .send => { s with buf := s.buf ++ [v] }
  | some .done => s.ret
  | _ => s

/-- One step of the goroutine `WsReader`; a step that cannot happen in the
current phase, or a blocked `select`, leaves the state as it is. -/
def WsReader (s : Sys) (e : Step) : Sys :=
  match e with
  | .dial ok =>
    if s.phase = .dialing then
      if ok then { s with retry := 0, phase := .reading }
      else { s with retry := s.retry + 1, phase := .sleeping (backoff (s.retry + 1)) }
    else s
  | .wake fired pick =>
    match s.phase with
    | .sleeping _ =>
      let ready := (if fired then [Case.timer] else []) ++
        (if s.cancelled then [Case.done] else [])
      match selectCase ready pick with
      | some .timer => { s with phase := .dialing }
      | some .done => s.ret
      | _ => s
    | _ => s
  | .frame r pick =>
    if s.phase = .reading then
      match r with
      | none => if s.cancelled then s.ret else { s with phase := .dialing }
      | some none => s
      | some (some v) => sendSelect s v pick
    else s
  | _ => s

/-- One step of the system: the context is cancelled, the consumer receives
(a receive on an empty channel changes nothing), or `WsReader` moves. -/
def Sys.step (s : Sys) (e : Step) : Sys :=
  match e with
  | .cancel => { s with cancelled := true }
  | .receive =>
    match s.buf with
    | v :: rest => { s with buf := rest, observed := s.observed ++ [v] }
    | [] => s
  | _ => WsReader s e

/-- The system after a sequence of steps. -/
def Sys.run (s : Sys) : List Step → Sys
  | [] => s
  | e :: rest => (s.step e).run rest

/-- The invariant of a session: at most one receive is outstanding, and none
once the stream is closed. -/
def Session.Inv (s : Session) : Prop :=
  s.pending ≤ 1 ∧ (s.streamClosed = true → s.pending = 0)

/-- The steps of `n + 1` consecutive failed dials, the timer expiring after each sleep. -/
def failTrace : Nat → List Step
  | 0 => [.dial false]
  | n + 1 => failTrace n ++ [.wake true 0, .dial false]

/-- The invariant of the channel: never more than `chanCap` queued samples, and
what the consumer has seen followed by what is queued is a subsequence of the
samples offered. -/
def Sys.Inv (s : Sys) : Prop :=
  s.buf.length ≤ chanCap ∧ (s.observed ++ s.buf).Sublist s.offered

/-! ## Auxiliary notions for the formatting proofs -/

/-- Pieces of three runes from the left; the last piece has one to three. -/
def chunk3 : List Char → List (List Char)
  | a :: b :: c :: d :: rest => [a, b, c] :: chunk3 (d :: rest)
  | [] => []
  | l => [l]

/-- The pieces joined with single spaces. -/
def joinSp : List (List Char) → List Char
  | [] => []
  | [g] => g
  | g :: g2 :: gs => g ++ ' ' :: joinSp (g2 :: gs)

/-- The digit groups of `D` in display order: threes counted from the right. -/
def groupsOf (D : List Char) : List (List Char) :=
  ((chunk3 D.reverse).map List.reverse).reverse

/-- The number a digit string denotes. -/
def valueOf (ds : List Char) : Nat :=
  ds.foldl (fun a c => 10 * a + (c.toNat - 48)) 0

/-! ## Auxiliary notions for the history and session proofs -/

/-- The expression `(last - first) / first * 100` in `float64` arithmetic. -/
def pctFormula (first last : F64) : F64 :=
  ((last.sub first).div first).mul (.fin 100)

/-- A sample that `render` can show: a finite double whose product with
`usdtToCzk` is finite too. -/
def Displayable : F64 → Bool
  | .fin q => decide (-MaxFloat64 ≤ q) && decide (q ≤ MaxFloat64) &&
      ((F64.fin q).mul usdtToCzk).isFin
  | _ => false

/-- A model every sample of which can be shown. -/
def model.Showable (m : model) : Prop :=
  (∀ x ∈ m.prices, Displayable x = true) ∧ Displayable m.last = true

/-- A plotting function that always returns, with an empty graph. -/
def plotBlank : Plotter := fun _ _ _ _ _ => some []

/-- A plotting function never panics. -/
def Plotter.Total (Plot : Plotter) : Prop :=
  ∀ series w h colour last, ∃ g, Plot series w h colour last = some g

/-- An event whose sample, if it carries one, can be shown. -/
def Event.Displayable : Event → Bool
  | .received (some v) => CryptoSSHEye.Displayable v
  | _ => true

/-! ## Formatting: lemmas -/

theorem digitChar_isDigit (d : Nat) (h : d < 10) : (digitChar d).isDigit = true := by
  interval_cases d <;> decide

theorem isDigit_utf8Size (c : Char) (h : c.isDigit = true) : c.utf8Size = 1 := by
  have h1 : c.val ≤ 57 := by
    simp [Char.isDigit] at h
    exact h.2
  have h2 : c.val ≤ 127 := by
    have h3 : c.val.val ≤ (57 : UInt32).val := h1
    have h4 : (57 : UInt32).val ≤ (127 : UInt32).val := by decide
    exact (show c.val.val ≤ (127 : UInt32).val from le_trans h3 h4)
  simp [Char.utf8Size, h2]

theorem natDigitsAux_spec (fuel : Nat) : ∀ (n : Nat) (acc : List Char), n < fuel →
    ∃ ds, natDigitsAux fuel n acc = ds ++ acc ∧ ds ≠ [] ∧ ∀ c ∈ ds, c.isDigit = true := by
  induction fuel with
  | zero => intro n acc h; omega
  | succ k ih =>
    intro n acc h
    unfold natDigitsAux
    by_cases h10 : n < 10
    · rw [if_pos h10]
      exact ⟨[digitChar n], rfl, by simp, by
        intro c hc
        rw [List.mem_singleton] at hc
        rw [hc]; exact digitChar_isDigit n h10⟩
    · rw [if_neg h10]
      obtain ⟨ds, h1, h2, h3⟩ := ih (n / 10) (digitChar (n % 10) :: acc) (by omega)
      refine ⟨ds ++ [digitChar (n % 10)], ?_, by simp, ?_⟩
      · rw [h1]; simp
      · intro c hc
        rw [List.mem_append, List.mem_singleton] at hc
        rcases hc with hc | hc
        · exact h3 c hc
        · rw [hc]; exact digitChar_isDigit _ (Nat.mod_lt _ (by decide))

theorem natDigits_spec (n : Nat) :
    natDigits n ≠ [] ∧ ∀ c ∈ natDigits n, c.isDigit = true := by
  obtain ⟨ds, h1, h2, h3⟩ := natDigitsAux_spec (n + 1) n [] (Nat.lt_succ_self n)
  unfold natDigits
  rw [h1, List.append_nil]
  exact ⟨h2, h3⟩

theorem Split_not_mem (sep : Char) (s : List Char) (h : sep ∉ s) : Split sep s = [s] := by
  induction s with
  | nil => rfl
  | cons c cs ih =>
    have hc : c ≠ sep := fun e => h (by rw [e]; exact List.mem_cons_self _ _)
    have hcs : sep ∉ cs := fun e => h (List.mem_cons_of_mem _ e)
    simp [Split, hc, ih hcs]

theorem Split_append_sep (sep : Char) (a b : List Char) (h : sep ∉ a) :
    Split sep (a ++ sep :: b) = a :: Split sep b := by
  induction a with
  | nil => simp [Split]
  | cons c cs ih =>
    have hc : c ≠ sep := fun e => h (by rw [e]; exact List.mem_cons_self _ _)
    have hcs : sep ∉ cs := fun e => h (List.mem_cons_of_mem _ e)
    simp [Split, hc, ih hcs]

theorem chunk3_flatten (l : List Char) : (chunk3 l).flatten = l := by
  induction' h : l.length using Nat.strong_induction_on with n ih generalizing l
  match l with
  | [] => rfl
  | [a] => rfl
  | [a, b] => rfl
  | [a, b, c] => rfl
  | a :: b :: c :: d :: rest =>
    have := ih (d :: rest).length (by subst h; simp) (d :: rest) rfl
    simp [chunk3, this]

theorem chunk3_shape (l : List Char) (hl : l ≠ []) :
    ∃ init lastg, chunk3 l = init ++ [lastg] ∧ (∀ g ∈ init, g.length = 3) ∧
      1 ≤ lastg.length ∧ lastg.length ≤ 3 := by
  induction' h : l.length using Nat.strong_induction_on with n ih generalizing l
  match l with
  | [] => exact absurd rfl hl
  | [a] => exact ⟨[], [a], rfl, by simp, by simp, by simp⟩
  | [a, b] => exact ⟨[], [a, b], rfl, by simp, by simp, by simp⟩
  | [a, b, c] => exact ⟨[], [a, b, c], rfl, by simp, by simp, by simp⟩
  | a :: b :: c :: d :: rest =>
    obtain ⟨init, lastg, h1, h2, h3, h4⟩ :=
      ih (d :: rest).length (by subst h; simp) (d :: rest) (by simp) rfl
    refine ⟨[a, b, c] :: init, lastg, ?_, ?_, h3, h4⟩
    · simp [chunk3, h1]
    · intro g hg
      rcases List.mem_cons.1 hg with hg | hg
      · rw [hg]; rfl
      · exact h2 g hg

theorem joinSp_cons_of_ne_nil (g : List Char) (gs : List (List Char)) (h : gs ≠ []) :
    joinSp (g :: gs) = g ++ ' ' :: joinSp gs := by
  cases gs with
  | nil => exact absurd rfl h
  | cons g2 gs => rfl

theorem spaceLoop_chunk (l : List Char) (hl : ∀ c ∈ l, c.utf8Size = 1) (i : Nat)
    (hi : i % 3 = 0) :
    spaceLoop i l = (if i ≠ 0 ∧ l ≠ [] then [' '] else []) ++ joinSp (chunk3 l) := by
  induction' h : l.length using Nat.strong_induction_on with n ih generalizing l i
  have e1 : ¬ (i + 1 ≠ 0 ∧ (i + 1) % 3 = 0) := by omega
  have e2 : ¬ (i + 1 + 1 ≠ 0 ∧ (i + 1 + 1) % 3 = 0) := by omega
  have e3 : ¬ ((i + 1) % 3 = 0) := by omega
  have e4 : ¬ ((i + 1 + 1) % 3 = 0) := by omega
  match l, hl with
  | [], _ => simp [spaceLoop, chunk3, joinSp]
  | [a], hl =>
    have ha := hl a (by simp)
    by_cases h0 : i = 0 <;> simp [spaceLoop, chunk3, joinSp, ha, h0, hi]
  | [a, b], hl =>
    have ha := hl a (by simp)
    have hb := hl b (by simp)
    by_cases h0 : i = 0 <;> simp [spaceLoop, chunk3, joinSp, ha, hb, h0, hi, e3]
  | [a, b, c], hl =>
    have ha := hl a (by simp)
    have hb := hl b (by simp)
    have hc := hl c (by simp)
    by_cases h0 : i = 0 <;> simp [spaceLoop, chunk3, joinSp, ha, hb, hc, h0, hi, e3, e4]
  | a :: b :: c :: d :: rest, hl =>
    have ha := hl a (by simp)
    have hb := hl b (by simp)
    have hc := hl c (by simp)
    have hrest : ∀ x ∈ d :: rest, x.utf8Size = 1 := fun x hx => hl x (by
      simp only [List.mem_cons] at hx ⊢; tauto)
    have key := ih (d :: rest).length (by subst h; simp) (d :: rest) hrest (i + 1 + 1 + 1)
      (by omega) rfl
    have hne : chunk3 (d :: rest) ≠ [] := by
      obtain ⟨init, lastg, h1, _⟩ := chunk3_shape (d :: rest) (by simp)
      rw [h1]; simp
    have hj : joinSp (chunk3 (a :: b :: c :: d :: rest))
        = [a, b, c] ++ ' ' :: joinSp (chunk3 (d :: rest)) := by
      rw [chunk3, joinSp_cons_of_ne_nil _ _ hne]
    rw [hj]
    rw [spaceLoop, spaceLoop, spaceLoop, ha, hb, hc, key, if_neg e1, if_neg e2]
    by_cases h0 : i = 0 <;> simp [h0, hi]

theorem joinSp_concat (gs : List (List Char)) (g : List Char) (h : gs ≠ []) :
    joinSp (gs ++ [g]) = joinSp gs ++ ' ' :: g := by
  induction gs with
  | nil => exact absurd rfl h
  | cons a as ih =>
    cases as with
    | nil => rfl
    | cons b bs =>
      have := ih (by simp)
      rw [List.cons_append, joinSp_cons_of_ne_nil a (b :: bs ++ [g]) (by simp), this,
        joinSp_cons_of_ne_nil a (b :: bs) (by simp)]
      simp

theorem joinSp_reverse (gs : List (List Char)) :
    (joinSp gs).reverse = joinSp (gs.map List.reverse).reverse := by
  induction gs with
  | nil => rfl
  | cons a as ih =>
    cases as with
    | nil => rfl
    | cons b bs =>
      rw [joinSp_cons_of_ne_nil _ _ (by simp), List.map_cons, List.reverse_cons,
        joinSp_concat _ _ (by simp), ← ih]
      simp

theorem Split_joinSp (gs : List (List Char)) (h : gs ≠ []) (hs : ∀ g ∈ gs, ' ' ∉ g) :
    Split ' ' (joinSp gs) = gs := by
  induction gs with
  | nil => exact absurd rfl h
  | cons a as ih =>
    cases as with
    | nil => exact Split_not_mem _ _ (hs a (by simp))
    | cons b bs =>
      rw [joinSp_cons_of_ne_nil _ _ (by simp), Split_append_sep _ _ _ (hs a (by simp)),
        ih (by simp) (fun g hg => hs g (List.mem_cons_of_mem _ hg))]

theorem filter_joinSp (gs : List (List Char)) (hs : ∀ g ∈ gs, ' ' ∉ g) :
    (joinSp gs).filter (fun c => c != ' ') = gs.flatten := by
  have hf : ∀ g : List Char, ' ' ∉ g → g.filter (fun c => c != ' ') = g := by
    intro g hg
    rw [List.filter_eq_self]
    intro c hc
    simp only [bne_iff_ne, ne_eq]
    rintro rfl
    exact hg hc
  induction gs with
  | nil => rfl
  | cons a as ih =>
    cases as with
    | nil => simpa [joinSp] using hf a (hs a (by simp))
    | cons b bs =>
      rw [joinSp_cons_of_ne_nil _ _ (by simp), List.filter_append, List.filter_cons,
        ih (fun g hg => hs g (List.mem_cons_of_mem _ hg)), hf a (hs a (by simp))]
      simp

theorem groupsOf_flatten (D : List Char) : (groupsOf D).flatten = D := by
  unfold groupsOf
  rw [← List.reverse_flatten, chunk3_flatten, List.reverse_reverse]

theorem groupsOf_shape (D : List Char) (hD : D ≠ []) :
    ∃ g rest, groupsOf D = g :: rest ∧ 1 ≤ g.length ∧ g.length ≤ 3 ∧
      ∀ x ∈ rest, x.length = 3 := by
  obtain ⟨init, lastg, h1, h2, h3, h4⟩ := chunk3_shape D.reverse (by simpa using hD)
  refine ⟨lastg.reverse, (init.map List.reverse).reverse, ?_, by simpa using h3,
    by simpa using h4, ?_⟩
  · unfold groupsOf
    rw [h1]; simp
  · intro x hx
    simp only [List.mem_reverse, List.mem_map] at hx
    obtain ⟨y, hy, rfl⟩ := hx
    simpa using h2 y hy

theorem groupsOf_mem (D : List Char) (g : List Char) (hg : g ∈ groupsOf D) :
    ∀ c ∈ g, c ∈ D := by
  intro c hc
  have : c ∈ (groupsOf D).flatten := List.mem_flatten.2 ⟨g, hg, hc⟩
  rwa [groupsOf_flatten] at this

theorem grouped_digits (D : List Char) (hd : ∀ c ∈ D, c.isDigit = true) :
    reverse (spaceLoop 0 (reverse D)) = joinSp (groupsOf D) := by
  unfold reverse
  rw [spaceLoop_chunk D.reverse (fun c hc => isDigit_utf8Size c (hd c (List.mem_reverse.1 hc)))
    0 rfl]
  simp only [ne_eq, not_true_eq_false, false_and, if_false, List.nil_append]
  rw [joinSp_reverse]
  rfl

theorem Sprintf2f_shape (f : ℚ) :
    ∃ D dd, Sprintf2f f = (if f < 0 then ['-'] else []) ++ D ++ '.' :: dd ∧ D ≠ [] ∧
      (∀ c ∈ D, c.isDigit = true) ∧ dd.length = 2 ∧ (∀ c ∈ dd, c.isDigit = true) := by
  let n := roundHalfEven (f.num.natAbs * 100) f.den
  refine ⟨natDigits (n / 100), [digitChar (n % 100 / 10), digitChar (n % 10)], rfl,
    (natDigits_spec _).1, (natDigits_spec _).2, rfl, ?_⟩
  intro c hc
  simp only [List.mem_cons, List.mem_singleton, List.not_mem_nil, or_false] at hc
  rcases hc with hc | hc
  · rw [hc]; exact digitChar_isDigit _ (by omega)
  · rw [hc]; exact digitChar_isDigit _ (Nat.mod_lt _ (by decide))

theorem formatRendered_split (I dd : List Char) (h1 : '.' ∉ I) (h2 : '.' ∉ dd) :
    formatRendered (I ++ '.' :: dd) = some (reverse (spaceLoop 0 (reverse I)) ++ '.' :: dd) := by
  unfold formatRendered
  rw [Split_append_sep _ _ _ h1, Split_not_mem _ _ h2]
  simp

theorem not_mem_of_digits (x : Char) (hx : x.isDigit = false) (D : List Char)
    (hD : ∀ c ∈ D, c.isDigit = true) : x ∉ D := by
  intro h
  have := hD x h
  rw [hx] at this
  exact Bool.noConfusion this

theorem FormatFloatWithSpaces_total (f : ℚ) : ∃ s, FormatFloatWithSpaces f = some s := by
  obtain ⟨D, dd, h1, _, h3, _, h5⟩ := Sprintf2f_shape f
  unfold FormatFloatWithSpaces
  rw [h1]
  refine ⟨_, formatRendered_split _ dd ?_ (not_mem_of_digits '.' rfl dd h5)⟩
  have hD := not_mem_of_digits '.' rfl D h3
  by_cases hf : f < 0
  · rw [if_pos hf]
    simp only [List.singleton_append, List.mem_cons, not_or]
    exact ⟨by decide, hD⟩
  · rw [if_neg hf]
    simpa using hD

theorem digitChar_toNat (d : Nat) (h : d < 10) : (digitChar d).toNat - 48 = d := by
  interval_cases d <;> decide

theorem valueOf_concat (ds : List Char) (c : Char) :
    valueOf (ds ++ [c]) = 10 * valueOf ds + (c.toNat - 48) := by
  simp [valueOf, List.foldl_append]

theorem natDigitsAux_value (fuel : Nat) : ∀ (n : Nat) (acc : List Char), n < fuel →
    ∃ ds, natDigitsAux fuel n acc = ds ++ acc ∧ valueOf ds = n := by
  induction fuel with
  | zero => intro n acc h; omega
  | succ k ih =>
    intro n acc h
    unfold natDigitsAux
    by_cases h10 : n < 10
    · rw [if_pos h10]
      exact ⟨[digitChar n], rfl, by simp [valueOf, digitChar_toNat n h10]⟩
    · rw [if_neg h10]
      obtain ⟨ds, h1, h2⟩ := ih (n / 10) (digitChar (n % 10) :: acc) (by omega)
      refine ⟨ds ++ [digitChar (n % 10)], by rw [h1]; simp, ?_⟩
      rw [valueOf_concat, h2, digitChar_toNat _ (Nat.mod_lt _ (by decide))]
      omega

/-- The decimal rendering of `n` denotes `n`. -/
theorem natDigits_value (n : Nat) : valueOf (natDigits n) = n := by
  obtain ⟨ds, h1, h2⟩ := natDigitsAux_value (n + 1) n [] (Nat.lt_succ_self n)
  unfold natDigits
  rw [h1, List.append_nil, h2]

/-- The rendering of a value `f ≥ 0` denotes `|f| * 100` rounded to the nearest
integer (ties to even), its last two digits being the decimals. -/
theorem Sprintf2f_value (f : ℚ) (hf : 0 ≤ f) :
    ∃ D dd, Sprintf2f f = D ++ '.' :: dd ∧
      valueOf D * 100 + valueOf dd = roundHalfEven (f.num.natAbs * 100) f.den := by
  refine ⟨natDigits (roundHalfEven (f.num.natAbs * 100) f.den / 100),
    [digitChar (roundHalfEven (f.num.natAbs * 100) f.den % 100 / 10),
      digitChar (roundHalfEven (f.num.natAbs * 100) f.den % 10)], ?_, ?_⟩
  · unfold Sprintf2f
    rw [if_neg (not_lt.2 hf)]
    rfl
  · rw [natDigits_value]
    have e : valueOf [digitChar (roundHalfEven (f.num.natAbs * 100) f.den % 100 / 10),
        digitChar (roundHalfEven (f.num.natAbs * 100) f.den % 10)]
        = 10 * (roundHalfEven (f.num.natAbs * 100) f.den % 100 / 10)
          + roundHalfEven (f.num.natAbs * 100) f.den % 10 := by
      simp only [valueOf, List.foldl_cons, List.foldl_nil]
      rw [digitChar_toNat _ (by omega), digitChar_toNat _ (Nat.mod_lt _ (by decide))]
      omega
    rw [e]
    omega

/-- C9. Thousands separators. For every value `f ≥ 0` the two-decimal rendering is
`D.dd` with `D` a non-empty digit string and `dd` two digits, and
`FormatFloatWithSpaces` returns `G.dd` where removing the spaces from `G` gives
`D` back, the pieces of `G` between the spaces are a first group of 1 to 3
digits followed by groups of exactly 3 digits, and `G` neither starts nor ends
with a space. -/
theorem thousands_groups (f : ℚ) (hf : 0 ≤ f) :
    ∃ D dd G, Sprintf2f f = D ++ '.' :: dd ∧ D ≠ [] ∧ (∀ c ∈ D, c.isDigit = true) ∧
      dd.length = 2 ∧ (∀ c ∈ dd, c.isDigit = true) ∧
      FormatFloatWithSpaces f = some (G ++ '.' :: dd) ∧
      G.filter (fun c => c != ' ') = D ∧
      (∃ g rest, Split ' ' G = g :: rest ∧ 1 ≤ g.length ∧ g.length ≤ 3 ∧
        ∀ x ∈ rest, x.length = 3) ∧
      G.head? ≠ some ' ' ∧ G.getLast? ≠ some ' ' := by
  obtain ⟨D, dd, h1, h2, h3, h4, h5⟩ := Sprintf2f_shape f
  rw [if_neg (not_lt.2 hf), List.nil_append] at h1
  have hsp : ∀ g ∈ groupsOf D, ' ' ∉ g := fun g hg hc =>
    not_mem_of_digits ' ' rfl D h3 (groupsOf_mem D g hg _ hc)
  obtain ⟨g, rest, e1, e2, e3, e4⟩ := groupsOf_shape D h2
  have hG : reverse (spaceLoop 0 (reverse D)) = joinSp (groupsOf D) := grouped_digits D h3
  refine ⟨D, dd, joinSp (groupsOf D), h1, h2, h3, h4, h5, ?_, ?_, ?_, ?_, ?_⟩
  · unfold FormatFloatWithSpaces
    rw [h1, formatRendered_split D dd (not_mem_of_digits '.' rfl D h3)
      (not_mem_of_digits '.' rfl dd h5), hG]
  · rw [filter_joinSp _ hsp, groupsOf_flatten]
  · refine ⟨g, rest, ?_, e2, e3, e4⟩
    rw [Split_joinSp _ (by rw [e1]; simp) hsp, e1]
  · -- the first rune of the output is the first rune of the leading group
    intro hh
    have hmem : ' ' ∈ joinSp (groupsOf D) := List.mem_of_mem_head? hh
    have : ' ' ∈ (joinSp (groupsOf D)).filter (fun c => c != ' ') := by
      rw [filter_joinSp _ hsp, groupsOf_flatten]
      cases hg : g with
      | nil => rw [hg] at e2; simp at e2
      | cons a as =>
        rw [e1, hg] at hh
        have ha : a = ' ' := by
          cases rest with
          | nil => simpa [joinSp] using hh
          | cons b bs => simpa [joinSp] using hh
        have : a ∈ D := groupsOf_mem D g (by rw [e1]; simp) a (by rw [hg]; simp)
        rwa [ha] at this
    simp at this
  · intro hh
    rw [← hG] at hh
    unfold reverse at hh
    rw [List.getLast?_reverse] at hh
    cases hr : D.reverse with
    | nil => exact h2 (by simpa using hr)
    | cons a as =>
      rw [hr] at hh
      have ha : a = ' ' := by simpa [spaceLoop] using hh
      have : a ∈ D := List.mem_reverse.1 (by rw [hr]; simp)
      rw [ha] at this
      exact not_mem_of_digits ' ' rfl D h3 this

/-! ## float64: lemmas -/

theorem roundF64_zero : roundF64 0 = .fin 0 := by
  simp [roundF64]

theorem roundedValue_nonneg (a b : Nat) : 0 ≤ roundedValue a b := by
  unfold roundedValue
  simp only
  split_ifs <;> positivity

theorem roundMag_nonneg (a b : Nat) :
    roundMag a b = .pinf ∨ ∃ r : ℚ, 0 ≤ r ∧ roundMag a b = .fin r := by
  unfold roundMag
  split_ifs
  · exact Or.inl rfl
  · exact Or.inr ⟨_, roundedValue_nonneg a b, rfl⟩

/-- Rounding keeps the sign: a non-negative exact result gives a non-negative
double or `+Inf`. -/
theorem roundF64_nonneg (q : ℚ) (h : 0 ≤ q) :
    roundF64 q = .pinf ∨ ∃ r : ℚ, 0 ≤ r ∧ roundF64 q = .fin r := by
  unfold roundF64
  by_cases h0 : q = 0
  · rw [if_pos h0]; exact Or.inr ⟨0, le_refl _, rfl⟩
  · rw [if_neg h0, if_pos (lt_of_le_of_ne h (Ne.symm h0))]
    exact roundMag_nonneg _ _

theorem format_fin (q : ℚ) : ∃ s, (F64.fin q).FormatFloatWithSpaces = some s :=
  FormatFloatWithSpaces_total q

/-- Only a finite value can be formatted: `+Inf`, `-Inf` and `NaN` have no dot,
and `parts[1]` panics. -/
theorem fin_of_format (x : F64) (s : List Char) (h : x.FormatFloatWithSpaces = some s) :
    ∃ q, x = .fin q := by
  cases x with
  | fin q => exact ⟨q, rfl⟩
  | pinf => exact Option.noConfusion h
  | ninf => exact Option.noConfusion h
  | nan => exact Option.noConfusion h

theorem Displayable_spec (x : F64) (h : Displayable x = true) :
    ∃ q r, x = .fin q ∧ -MaxFloat64 ≤ q ∧ q ≤ MaxFloat64 ∧ x.mul usdtToCzk = .fin r := by
  cases x with
  | fin q =>
    simp only [Displayable, Bool.and_eq_true, decide_eq_true_eq] at h
    obtain ⟨⟨h1, h2⟩, h3⟩ := h
    cases hm : (F64.fin q).mul usdtToCzk with
    | fin r => exact ⟨q, r, rfl, h1, h2, rfl⟩
    | pinf => rw [hm] at h3; exact absurd h3 (by decide)
    | ninf => rw [hm] at h3; exact absurd h3 (by decide)
    | nan => rw [hm] at h3; exact absurd h3 (by decide)
  | pinf => exact absurd h (by decide)
  | ninf => exact absurd h (by decide)
  | nan => exact absurd h (by decide)

theorem infoLine_displayable (a b c : F64) (ha : Displayable a = true)
    (hb : Displayable b = true) (hc : Displayable c = true) :
    (∃ s, infoLine a b c = some s) ∧
      ∃ s, infoLine (a.mul usdtToCzk) (b.mul usdtToCzk) (c.mul usdtToCzk) = some s := by
  obtain ⟨qa, ra, rfl, -, -, ea⟩ := Displayable_spec a ha
  obtain ⟨qb, rb, rfl, -, -, eb⟩ := Displayable_spec b hb
  obtain ⟨qc, rc, rfl, -, -, ec⟩ := Displayable_spec c hc
  rw [ea, eb, ec]
  obtain ⟨s1, h1⟩ := format_fin qa
  obtain ⟨s2, h2⟩ := format_fin qb
  obtain ⟨s3, h3⟩ := format_fin qc
  obtain ⟨t1, g1⟩ := format_fin ra
  obtain ⟨t2, g2⟩ := format_fin rb
  obtain ⟨t3, g3⟩ := format_fin rc
  exact ⟨⟨(s1, s2, s3), by simp [infoLine, h1, h2, h3]⟩,
    ⟨(t1, t2, t3), by simp [infoLine, g1, g2, g3]⟩⟩

theorem infoLine_fin (a b c : F64) (s : List Char × List Char × List Char)
    (h : infoLine a b c = some s) : (∃ q, a = .fin q) ∧ (∃ q, b = .fin q) ∧ ∃ q, c = .fin q := by
  unfold infoLine at h
  cases h1 : a.FormatFloatWithSpaces with
  | none => simp [h1] at h
  | some s1 =>
    cases h2 : b.FormatFloatWithSpaces with
    | none => simp [h1, h2] at h
    | some s2 =>
      cases h3 : c.FormatFloatWithSpaces with
      | none => simp [h1, h2, h3] at h
      | some s3 => exact ⟨fin_of_format a s1 h1, fin_of_format b s2 h2, fin_of_format c s3 h3⟩

/-! ## History, statistics and trend -/

theorem keep_eq_drop (xs : List F64) :
    (if xs.length > maxPoints then xs.drop (xs.length - maxPoints) else xs)
      = xs.drop (xs.length - maxPoints) := by
  by_cases h : xs.length > maxPoints
  · rw [if_pos h]
  · rw [if_neg h]
    have : xs.length - maxPoints = 0 := by omega
    rw [this, List.drop_zero]

theorem drop_keep (N : Nat) (L R : List F64) :
    (L.drop (L.length - N) ++ R).drop ((L.drop (L.length - N) ++ R).length - N)
      = (L ++ R).drop ((L ++ R).length - N) := by
  have h1 : L.drop (L.length - N) ++ R = (L ++ R).drop (L.length - N) := by
    rw [List.drop_append_of_le_length (by omega)]
  rw [h1, List.drop_drop]
  congr 1
  simp only [List.length_drop, List.length_append]
  omega

theorem appendPrice_prices (m : model) (v : F64) :
    (appendPrice m v).prices = (m.prices ++ [v]).drop ((m.prices ++ [v]).length - maxPoints) ∧
      (appendPrice m v).last = v ∧ (appendPrice m v).vpWidth = m.vpWidth ∧
      (appendPrice m v).vpHeight = m.vpHeight :=
  ⟨keep_eq_drop _, rfl, rfl, rfl⟩

theorem appendPrice_ne_nil (m : model) (v : F64) : (appendPrice m v).prices ≠ [] := by
  rw [(appendPrice_prices m v).1]
  intro h
  have := congrArg List.length h
  simp only [List.length_drop, List.length_append, List.length_singleton, List.length_nil,
    maxPoints] at this
  omega

/-- The history after the samples `vs` were appended, one after another, to a
history built the same way from `pre`. -/
theorem foldl_appendPrice (vs : List F64) : ∀ (m : model) (pre : List F64),
    m.prices = pre.drop (pre.length - maxPoints) →
    (vs.foldl appendPrice m).prices = (pre ++ vs).drop ((pre ++ vs).length - maxPoints) := by
  induction vs with
  | nil => intro m pre h; simpa using h
  | cons v rest ih =>
    intro m pre h
    rw [List.foldl_cons, ih (appendPrice m v) (pre ++ [v])]
    · simp
    · rw [(appendPrice_prices m v).1, h]
      exact drop_keep maxPoints pre [v]

theorem render_nil (Plot : Plotter) (m : model) (h : m.prices = []) :
    render Plot m = some { m with content := .connecting } := by
  unfold render
  rw [if_pos (by rw [h]; rfl)]

/-- What `render` has done when it returns on a non-empty history. -/
theorem render_some (Plot : Plotter) (m m1 : model) (hne : m.prices ≠ [])
    (h : render Plot m = some m1) :
    m1.prices = m.prices ∧ m1.last = m.last ∧ m1.vpWidth = m.vpWidth ∧
      m1.vpHeight = m.vpHeight ∧ m1.showHelp = m.showHelp ∧
      ∃ c, m1.content = .chart c ∧ c.trendColor = trendOf m.prices m.last ∧
        c.pct = pctOf m.prices ∧ c.span = (stats m.prices).2.sub (stats m.prices).1 ∧
        c.series = m.prices ∧ c.caption = m.last ∧
        infoLine m.last (stats m.prices).1 (stats m.prices).2 = some c.usdt ∧
        infoLine (m.last.mul usdtToCzk) ((stats m.prices).1.mul usdtToCzk)
          ((stats m.prices).2.mul usdtToCzk) = some c.czk := by
  unfold render at h
  rw [if_neg (fun e => hne (List.length_eq_zero.1 e))] at h
  simp only [Option.bind_eq_bind, Option.pure_def] at h
  cases hp : Plot m.prices (max 20 (m.vpWidth - 4)) (max 8 (min 20 (m.vpHeight - 6)))
      (trendOf m.prices m.last) m.last with
  | none => rw [hp] at h; exact Option.noConfusion h
  | some g =>
    cases hu : infoLine m.last (stats m.prices).1 (stats m.prices).2 with
    | none => rw [hp, hu] at h; exact Option.noConfusion h
    | some u =>
      cases hc : infoLine (m.last.mul usdtToCzk) ((stats m.prices).1.mul usdtToCzk)
          ((stats m.prices).2.mul usdtToCzk) with
      | none => rw [hp, hu, hc] at h; exact Option.noConfusion h
      | some z =>
        rw [hp, hu, hc] at h
        simp only [Option.some_bind, Option.some.injEq] at h
        subst h
        exact ⟨rfl, rfl, rfl, rfl, rfl, _, rfl, rfl, rfl, rfl, rfl, rfl, rfl, rfl⟩

/-- When `render` returns: the plot returns and both info lines can be formatted. -/
theorem render_total (Plot : Plotter) (m : model) (g : List Char)
    (u z : List Char × List Char × List Char)
    (hp : Plot m.prices (max 20 (m.vpWidth - 4)) (max 8 (min 20 (m.vpHeight - 6)))
      (trendOf m.prices m.last) m.last = some g)
    (hu : infoLine m.last (stats m.prices).1 (stats m.prices).2 = some u)
    (hc : infoLine (m.last.mul usdtToCzk) ((stats m.prices).1.mul usdtToCzk)
      ((stats m.prices).2.mul usdtToCzk) = some z) :
    ∃ m1, render Plot m = some m1 := by
  unfold render
  by_cases h0 : m.prices.length = 0
  · rw [if_pos h0]; exact ⟨_, rfl⟩
  · rw [if_neg h0]
    simp only [Option.bind_eq_bind, Option.pure_def, hp, hu, hc, Option.some_bind]
    exact ⟨_, rfl⟩

theorem statsLoop_fin (xs : List F64) (hx : ∀ x ∈ xs, ∃ q, x = F64.fin q) : ∀ a b : ℚ,
    ∃ lo hi : ℚ, statsLoop xs (.fin a, .fin b) = (.fin lo, .fin hi) ∧
      lo ≤ a ∧ (∀ q, F64.fin q ∈ xs → lo ≤ q) ∧ (lo = a ∨ F64.fin lo ∈ xs) ∧
      b ≤ hi ∧ (∀ q, F64.fin q ∈ xs → q ≤ hi) ∧ (hi = b ∨ F64.fin hi ∈ xs) := by
  induction xs with
  | nil => intro a b; exact ⟨a, b, rfl, le_refl _, by simp, Or.inl rfl, le_refl _, by simp,
      Or.inl rfl⟩
  | cons v vs ih =>
    intro a b
    obtain ⟨q, rfl⟩ := hx v (List.mem_cons_self _ _)
    have hvs : ∀ x ∈ vs, ∃ q, x = F64.fin q := fun x h => hx x (List.mem_cons_of_mem _ h)
    have e1 : (if (F64.fin q).lt (.fin a) then F64.fin q else .fin a)
        = .fin (if q < a then q else a) := by
      by_cases h : q < a <;> simp [F64.lt, h]
    have e2 : (if (F64.fin b).lt (.fin q) then F64.fin q else .fin b)
        = .fin (if b < q then q else b) := by
      by_cases h : b < q <;> simp [F64.lt, h]
    obtain ⟨lo, hi, h0, h1, h2, h3, h4, h5, h6⟩ :=
      ih hvs (if q < a then q else a) (if b < q then q else b)
    have ea : (if q < a then q else a) ≤ a ∧ (if q < a then q else a) ≤ q := by
      split_ifs with h
      · exact ⟨le_of_lt h, le_refl _⟩
      · exact ⟨le_refl _, not_lt.1 h⟩
    have eb : b ≤ (if b < q then q else b) ∧ q ≤ (if b < q then q else b) := by
      split_ifs with h
      · exact ⟨le_of_lt h, le_refl _⟩
      · exact ⟨le_refl _, not_lt.1 h⟩
    have ca : (if q < a then q else a) = a ∨ (if q < a then q else a) = q := by
      split_ifs <;> simp
    have cb : (if b < q then q else b) = b ∨ (if b < q then q else b) = q := by
      split_ifs <;> simp
    refine ⟨lo, hi, ?_, le_trans h1 ea.1, ?_, ?_, le_trans eb.1 h4, ?_, ?_⟩
    · rw [statsLoop, e1, e2, h0]
    · intro p hp
      rcases List.mem_cons.1 hp with hp | hp
      · rw [F64.fin.injEq] at hp; rw [hp]; exact le_trans h1 ea.2
      · exact h2 p hp
    · rcases h3 with h3 | h3
      · rcases ca with ca | ca
        · left; rw [h3, ca]
        · right; rw [h3, ca]; exact List.mem_cons_self _ _
      · right; exact List.mem_cons_of_mem _ h3
    · intro p hp
      rcases List.mem_cons.1 hp with hp | hp
      · rw [F64.fin.injEq] at hp; rw [hp]; exact le_trans eb.2 h4
      · exact h5 p hp
    · rcases h6 with h6 | h6
      · rcases cb with cb | cb
        · left; rw [h6, cb]
        · right; rw [h6, cb]; exact List.mem_cons_self _ _
      · right; exact List.mem_cons_of_mem _ h6

/-- On a non-empty history of finite samples `stats` returns two of the samples,
the least and the greatest. -/
theorem stats_fin (xs : List F64) (hne : xs ≠ []) (hfin : ∀ x ∈ xs, FiniteSample x) :
    ∃ lo hi : ℚ, stats xs = (.fin lo, .fin hi) ∧ F64.fin lo ∈ xs ∧ F64.fin hi ∈ xs ∧
      ∀ q, F64.fin q ∈ xs → lo ≤ q ∧ q ≤ hi := by
  have hlen : ¬ xs.length = 0 := fun h => hne (List.length_eq_zero.1 h)
  have hs : stats xs = statsLoop xs (.fin MaxFloat64, .fin (-MaxFloat64)) := by
    unfold stats; rw [if_neg hlen]
  obtain ⟨lo, hi, h0, -, h2, h3, -, h5, h6⟩ := statsLoop_fin xs
    (fun x hx => (hfin x hx).imp fun q hq => hq.1) MaxFloat64 (-MaxFloat64)
  obtain ⟨x0, hx0⟩ := List.exists_mem_of_ne_nil xs hne
  obtain ⟨q0, rfl, hq1, hq2⟩ := hfin x0 hx0
  refine ⟨lo, hi, by rw [hs, h0], ?_, ?_, fun q hq => ⟨h2 q hq, h5 q hq⟩⟩
  · rcases h3 with h3 | h3
    · -- the sentinel survives only if every sample equals it
      have hq : q0 = MaxFloat64 := le_antisymm hq2 (h3 ▸ h2 q0 hx0)
      rw [h3, ← hq]; exact hx0
    · exact h3
  · rcases h6 with h6 | h6
    · have hq : q0 = -MaxFloat64 := le_antisymm (h6 ▸ h5 q0 hx0) hq1
      rw [h6, ← hq]; exact hx0
    · exact h6

theorem Displayable_finite (x : F64) (h : Displayable x = true) : FiniteSample x := by
  obtain ⟨q, r, hq, h1, h2, -⟩ := Displayable_spec x h
  exact ⟨q, hq, h1, h2⟩

/-- A model whose samples can all be shown is rendered without a panic, as long
as the plot returns. -/
theorem render_showable (Plot : Plotter) (hP : Plot.Total) (m : model) (hm : m.Showable) :
    ∃ m1, render Plot m = some m1 := by
  by_cases hne : m.prices = []
  · exact ⟨_, render_nil Plot m hne⟩
  · obtain ⟨lo, hi, h0, h1, h2, -⟩ := stats_fin m.prices hne
      (fun x hx => Displayable_finite x (hm.1 x hx))
    obtain ⟨g, hg⟩ := hP m.prices (max 20 (m.vpWidth - 4)) (max 8 (min 20 (m.vpHeight - 6)))
      (trendOf m.prices m.last) m.last
    have e1 : (stats m.prices).1 = .fin lo := by rw [h0]
    have e2 : (stats m.prices).2 = .fin hi := by rw [h0]
    obtain ⟨⟨u, hu⟩, ⟨z, hz⟩⟩ := infoLine_displayable m.last (.fin lo) (.fin hi) hm.2
      (hm.1 _ h1) (hm.1 _ h2)
    rw [← e1, ← e2] at hu hz
    exact render_total Plot m g u z hg hu hz

/-- What the `PriceMsg` branch has done when it returns. -/
theorem Update_price (Plot : Plotter) (m : model) (v : F64) (r : model × Cmd)
    (h : Update Plot m (.PriceMsg v) = some r) :
    r.2 = .awaitPrice ∧ r.1.prices = (appendPrice m v).prices ∧ r.1.last = v ∧
      (∃ q, v = .fin q) ∧
      ∃ c, r.1.content = .chart c ∧ c.trendColor = trendOf r.1.prices v ∧
        c.pct = pctOf r.1.prices := by
  simp only [Update, Option.map_eq_some'] at h
  obtain ⟨m1, h1, rfl⟩ := h
  obtain ⟨e1, e2, -, -, -, c, c1, c2, c3, -, -, -, c7, -⟩ :=
    render_some Plot (appendPrice m v) m1 (appendPrice_ne_nil m v) h1
  have e3 : m1.last = v := e2
  refine ⟨rfl, e1, e3, (infoLine_fin _ _ _ _ c7).1, c, c1, ?_, ?_⟩
  · rw [c2, e1]; rfl
  · rw [c3, e1]

theorem appendPrice_showable (m : model) (v : F64) (hm : m.Showable)
    (hv : Displayable v = true) : (appendPrice m v).Showable := by
  refine ⟨?_, hv⟩
  intro x hx
  rw [(appendPrice_prices m v).1] at hx
  rcases List.mem_append.1 (List.mem_of_mem_drop hx) with h | h
  · exact hm.1 x h
  · rw [List.mem_singleton] at h; rw [h]; exact hv

/-- The `PriceMsg` branch returns, with the next receive, when the sample can be
shown and the plot returns. -/
theorem Update_price_total (Plot : Plotter) (hP : Plot.Total) (m : model) (v : F64)
    (hm : m.Showable) (hv : Displayable v = true) :
    ∃ m1, Update Plot m (.PriceMsg v) = some (m1, .awaitPrice) ∧ m1.Showable := by
  have hs := appendPrice_showable m v hm hv
  obtain ⟨m1, h1⟩ := render_showable Plot hP (appendPrice m v) hs
  refine ⟨m1, by simp only [Update, h1, Option.map_some'], ?_⟩
  obtain ⟨e1, e2, -⟩ := render_some Plot (appendPrice m v) m1 (appendPrice_ne_nil m v) h1
  exact ⟨by rw [e1]; exact hs.1, by rw [e2]; exact hs.2⟩

theorem render_keeps (Plot : Plotter) (m m1 : model) (h : render Plot m = some m1) :
    m1.prices = m.prices ∧ m1.last = m.last := by
  by_cases hne : m.prices = []
  · rw [render_nil Plot m hne] at h
    rw [← Option.some.inj h]
    exact ⟨rfl, rfl⟩
  · obtain ⟨e1, e2, -⟩ := render_some Plot m m1 hne h
    exact ⟨e1, e2⟩

/-- Every message other than a sample leaves `prices` and `last` as they are and
starts no receive. -/
theorem Update_other (Plot : Plotter) (m : model) (msg : Msg) (hmsg : ∀ v, msg ≠ .PriceMsg v)
    (r : model × Cmd) (h : Update Plot m msg = some r) :
    r.1.prices = m.prices ∧ r.1.last = m.last ∧ receives r.2 = 0 := by
  cases msg with
  | PriceMsg v => exact absurd rfl (hmsg v)
  | WindowSizeMsg w h' =>
    rw [← Option.some.inj h]; exact ⟨rfl, rfl, rfl⟩
  | StatusMsg s =>
    rw [← Option.some.inj h]; exact ⟨rfl, rfl, rfl⟩
  | other =>
    rw [← Option.some.inj h]; exact ⟨rfl, rfl, rfl⟩
  | KeyMsg k =>
    unfold Update at h
    by_cases hq : k ∈ quitKeys
    · simp only [hq, if_true] at h
      rw [← Option.some.inj h]; exact ⟨rfl, rfl, rfl⟩
    · by_cases hh : k ∈ helpKeys
      · simp only [hq, hh, if_true, if_false, Option.map_eq_some'] at h
        obtain ⟨m1, h1, rfl⟩ := h
        obtain ⟨e1, e2⟩ := render_keeps Plot _ m1 h1
        exact ⟨e1, e2, rfl⟩
      · simp only [hq, hh, if_false] at h
        rw [← Option.some.inj h]; exact ⟨rfl, rfl, rfl⟩

/-- A message other than a sample is handled without a panic when the samples
held can be shown and the plot returns. -/
theorem Update_other_total (Plot : Plotter) (hP : Plot.Total) (m : model) (msg : Msg)
    (hmsg : ∀ v, msg ≠ .PriceMsg v) (hm : m.Showable) :
    ∃ r, Update Plot m msg = some r ∧ r.1.Showable := by
  cases msg with
  | PriceMsg v => exact absurd rfl (hmsg v)
  | WindowSizeMsg w h' => exact ⟨_, rfl, hm⟩
  | StatusMsg s => exact ⟨_, rfl, hm⟩
  | other => exact ⟨_, rfl, hm⟩
  | KeyMsg k =>
    unfold Update
    by_cases hq : k ∈ quitKeys
    · simp only [hq, if_true]; exact ⟨_, rfl, hm⟩
    · by_cases hh : k ∈ helpKeys
      · have hs : model.Showable { m with showHelp := !m.showHelp } := hm
        obtain ⟨m1, h1⟩ := render_showable Plot hP _ hs
        obtain ⟨e1, e2⟩ := render_keeps Plot _ m1 h1
        simp only [hq, hh, if_true, if_false, h1, Option.map_some']
        exact ⟨_, rfl, by rw [model.Showable, e1, e2]; exact hm⟩
      · simp only [hq, hh, if_false]; exact ⟨_, rfl, hm⟩

theorem feed_append (Plot : Plotter) (a b : List Msg) : ∀ m : model,
    feed Plot m (a ++ b) = (feed Plot m a).bind fun m1 => feed Plot m1 b := by
  induction a with
  | nil => intro m; rfl
  | cons x xs ih =>
    intro m
    rw [List.cons_append, feed, feed]
    cases h : Update Plot m x with
    | none => rfl
    | some r => simp only [Option.some_bind, ih]

theorem feed_cons (Plot : Plotter) (m m2 : model) (msg : Msg) (rest : List Msg)
    (h : feed Plot m (msg :: rest) = some m2) :
    ∃ r, Update Plot m msg = some r ∧ feed Plot r.1 rest = some m2 := by
  rw [feed] at h
  cases hu : Update Plot m msg with
  | none => rw [hu] at h; exact Option.noConfusion h
  | some r => rw [hu] at h; exact ⟨r, rfl, h⟩

theorem foldl_appendPrice_congr (vs : List F64) : ∀ a b : model,
    a.prices = b.prices → a.last = b.last →
    (vs.foldl appendPrice a).prices = (vs.foldl appendPrice b).prices ∧
      (vs.foldl appendPrice a).last = (vs.foldl appendPrice b).last := by
  induction vs with
  | nil => intro a b h1 h2; exact ⟨h1, h2⟩
  | cons w ws ih =>
    intro a b h1 h2
    rw [List.foldl_cons, List.foldl_cons]
    exact ih _ _ (by simp only [appendPrice, h1]) rfl

/-- Feeding samples: when no call panics, the history is the one the appends
build, and every sample was finite. -/
theorem feed_prices (Plot : Plotter) (vs : List F64) : ∀ m m2 : model,
    feed Plot m (vs.map Msg.PriceMsg) = some m2 →
    m2.prices = (vs.foldl appendPrice m).prices ∧ (∀ v ∈ vs, ∃ q, v = F64.fin q) ∧
      (vs ≠ [] → m2.last = (vs.foldl appendPrice m).last) := by
  induction vs with
  | nil =>
    intro m m2 h
    rw [← Option.some.inj h]
    exact ⟨rfl, by simp, fun h => absurd rfl h⟩
  | cons v rest ih =>
    intro m m2 h
    obtain ⟨r, h1, h2⟩ := feed_cons Plot m m2 _ _ h
    obtain ⟨-, e2, e3, e4, -⟩ := Update_price Plot m v r h1
    obtain ⟨g1, g2, g3⟩ := ih r.1 m2 h2
    obtain ⟨c1, c2⟩ := foldl_appendPrice_congr rest r.1 (appendPrice m v) e2 e3
    refine ⟨by rw [g1, List.foldl_cons, c1], ?_, fun _ => ?_⟩
    · intro x hx
      rcases List.mem_cons.1 hx with hx | hx
      · rw [hx]; exact e4
      · exact g2 x hx
    · rw [List.foldl_cons, ← c2]
      by_cases hr : rest = []
      · subst hr
        rw [← Option.some.inj h2]
        rfl
      · exact g3 hr

/-- Feeding samples that can all be shown never panics, as long as the plot returns. -/
theorem feed_total (Plot : Plotter) (hP : Plot.Total) (vs : List F64)
    (hv : ∀ v ∈ vs, Displayable v = true) : ∀ m : model, m.Showable →
    ∃ m2, feed Plot m (vs.map Msg.PriceMsg) = some m2 := by
  induction vs with
  | nil => intro m _; exact ⟨m, rfl⟩
  | cons v rest ih =>
    intro m hm
    obtain ⟨m1, h1, h2⟩ := Update_price_total Plot hP m v hm (hv v (List.mem_cons_self _ _))
    obtain ⟨m2, h3⟩ := ih (fun x hx => hv x (List.mem_cons_of_mem _ hx)) m1 h2
    exact ⟨m2, by simp only [List.map_cons, feed, h1, Option.some_bind, h3]⟩

theorem InitialModel_showable (width height : Int) : (InitialModel width height).Showable :=
  ⟨fun x hx => absurd hx (List.not_mem_nil x),
    (by decide! : Displayable (.fin 0) = true)⟩

theorem foldl_appendPrice_last (vs : List F64) (hvs : vs ≠ []) (m : model) :
    (vs.foldl appendPrice m).last = vs.getLast hvs := by
  induction vs generalizing m with
  | nil => exact absurd rfl hvs
  | cons v rest ih =>
    rw [List.foldl_cons]
    by_cases hr : rest = []
    · subst hr; rfl
    · rw [ih hr, List.getLast_cons hr]

theorem foldl_init_prices (width height : Int) (vs : List F64) :
    (vs.foldl appendPrice (InitialModel width height)).prices.length = min vs.length 1800 ∧
      (vs.foldl appendPrice (InitialModel width height)).prices
        = vs.drop (vs.length - min vs.length 1800) := by
  have h := foldl_appendPrice vs (InitialModel width height) [] rfl
  rw [List.nil_append] at h
  have e : vs.length - min vs.length 1800 = vs.length - 1800 := by omega
  rw [h, e]
  exact ⟨by rw [List.length_drop, maxPoints]; omega, rfl⟩

/-- C1. History bound. Starting from the empty history of `InitialModel`, when the
`PriceMsg` branch of `Update` handles the `K` samples `vs` one after another,
the history its append builds has length `min K 1800` and is exactly the last
`min K 1800` samples of `vs` in arrival order, whatever the samples are; this is
the `prices` of the model whenever every call returns, and every call returns
when each sample can be shown and the plot returns. One more sample is
appended at the end, and when the history is full (1800 samples) the oldest
one is dropped. -/
theorem history_bound (Plot : Plotter) (width height : Int) (vs : List F64) :
    (vs.foldl appendPrice (InitialModel width height)).prices.length = min vs.length 1800 ∧
    (vs.foldl appendPrice (InitialModel width height)).prices
      = vs.drop (vs.length - min vs.length 1800) ∧
    (∀ m, feed Plot (InitialModel width height) (vs.map Msg.PriceMsg) = some m →
      m.prices.length = min vs.length 1800 ∧
      m.prices = vs.drop (vs.length - min vs.length 1800)) ∧
    (Plot.Total → (∀ v ∈ vs, Displayable v = true) →
      ∃ m, feed Plot (InitialModel width height) (vs.map Msg.PriceMsg) = some m) ∧
    (∀ (m : model) (v : F64) (r : model × Cmd), Update Plot m (.PriceMsg v) = some r →
      r.1.prices = (appendPrice m v).prices) ∧
    (∀ (m : model) (v : F64), m.prices.length ≤ 1800 →
      (appendPrice m v).prices =
        if m.prices.length = 1800 then m.prices.tail ++ [v] else m.prices ++ [v]) := by
  obtain ⟨h1, h2⟩ := foldl_init_prices width height vs
  refine ⟨h1, h2, ?_, ?_, ?_, ?_⟩
  · intro m hm
    obtain ⟨e, -⟩ := feed_prices Plot vs _ m hm
    rw [e]
    exact ⟨h1, h2⟩
  · intro hP hv
    exact feed_total Plot hP vs hv _ (InitialModel_showable width height)
  · intro m v r hr
    exact (Update_price Plot m v r hr).2.1
  · intro m v hlen
    rw [(appendPrice_prices m v).1]
    by_cases hfull : m.prices.length = 1800
    · rw [if_pos hfull]
      have : (m.prices ++ [v]).length - maxPoints = 1 := by
        simp [hfull, maxPoints]
      rw [this]
      cases hp : m.prices with
      | nil => rw [hp] at hfull; exact absurd hfull (by decide)
      | cons a as => rfl
    · rw [if_neg hfull]
      have : (m.prices ++ [v]).length - maxPoints = 0 := by
        simp only [List.length_append, List.length_singleton, maxPoints]; omega
      rw [this, List.drop_zero]

/-- C3. The function `stats` returns `(0, 0)` for the empty sequence. For a non-empty
sequence `xs` of finite samples it returns `(m, M)` where `m` and `M` are both
elements of `xs` and `m ≤ x ≤ M` for every `x` in `xs` (so neither is a
`MaxFloat64` sentinel that is not a sample); the `float64` difference `M - m`
is a non-negative double or `+Inf`, never negative, and it is the span on the
chart whenever `render` returns. -/
theorem stats_min_max (xs : List F64) (hne : xs ≠ []) (hfin : ∀ x ∈ xs, FiniteSample x) :
    stats [] = (.fin 0, .fin 0) ∧
    ∃ lo hi : ℚ, stats xs = (.fin lo, .fin hi) ∧ F64.fin lo ∈ xs ∧ F64.fin hi ∈ xs ∧
      (∀ q, F64.fin q ∈ xs → lo ≤ q ∧ q ≤ hi) ∧
      ((F64.fin hi).sub (.fin lo) = .pinf ∨
        ∃ d : ℚ, 0 ≤ d ∧ (F64.fin hi).sub (.fin lo) = .fin d) ∧
      ((F64.fin hi).sub (.fin lo)).lt (.fin 0) = false ∧
      ∀ (Plot : Plotter) (m m1 : model) (c : Chart), m.prices = xs →
        render Plot m = some m1 → m1.content = .chart c →
        c.span = (F64.fin hi).sub (.fin lo) := by
  obtain ⟨lo, hi, h0, h1, h2, h3⟩ := stats_fin xs hne hfin
  have hle : lo ≤ hi := by
    obtain ⟨x0, hx0⟩ := List.exists_mem_of_ne_nil xs hne
    obtain ⟨q0, rfl, -⟩ := hfin x0 hx0
    exact le_trans (h3 q0 hx0).1 (h3 q0 hx0).2
  have hsub : (F64.fin hi).sub (.fin lo) = roundF64 (hi - lo) := rfl
  have hsign := roundF64_nonneg (hi - lo) (sub_nonneg.2 hle)
  refine ⟨rfl, lo, hi, h0, h1, h2, h3, by rw [hsub]; exact hsign, ?_, ?_⟩
  · rw [hsub]
    rcases hsign with h | ⟨d, hd, h⟩
    · rw [h]; rfl
    · rw [h]
      simp only [F64.lt, decide_eq_false_iff_not, not_lt]
      exact hd
  · intro Plot m m1 c hm hr hc
    obtain ⟨-, -, -, -, -, c', e1, -, -, e4, -⟩ := render_some Plot m m1 (by rw [hm]; exact hne) hr
    rw [hc] at e1
    rw [Content.chart.injEq] at e1
    rw [e1, e4, hm, h0]

theorem pctFormula_self (q : ℚ) (hq : q ≠ 0) : pctFormula (.fin q) (.fin q) = .fin 0 := by
  simp [pctFormula, F64.sub, F64.div, F64.mul, roundF64_zero, hq]

theorem pctOf_two (x y : F64) (rest : List F64) :
    pctOf (x :: y :: rest) =
      if x.eq (.fin 0) = true then .fin 0
      else pctFormula x ((x :: y :: rest).getLast (by simp)) := by
  have h1 : (x :: y :: rest).length > 1 := by simp
  have h2 : (x :: y :: rest).getD 0 (.fin 0) = x := rfl
  have h3 : (x :: y :: rest).getD ((x :: y :: rest).length - 1) (.fin 0)
      = (x :: y :: rest).getLast (by simp) := by
    rw [List.getLast_eq_getElem, List.getD_eq_getElem?_getD,
      List.getElem?_eq_getElem (by simp)]
    rfl
  unfold pctOf
  rw [h2, h3]
  by_cases hx : x.eq (.fin 0) = true
  · rw [if_pos hx, if_neg (by rw [hx]; simp)]
  · rw [if_neg hx, if_pos ⟨h1, by simpa using hx⟩]
    rfl

/-- When `render` returns on a single-sample history, the sample is finite: an
infinite one is the minimum or maximum and cannot be formatted, and with NaN
the sentinels stay and `MaxFloat64 * 21` overflows. -/
theorem render_single_fin (Plot : Plotter) (m m1 : model) (x : F64) (hm : m.prices = [x])
    (h : render Plot m = some m1) : ∃ q, x = .fin q := by
  obtain ⟨-, -, -, -, -, c, -, -, -, -, -, -, c7, c8⟩ :=
    render_some Plot m m1 (by rw [hm]; simp) h
  rw [hm] at c7 c8
  obtain ⟨-, ⟨q1, e1⟩, ⟨q2, e2⟩⟩ := infoLine_fin _ _ _ _ c7
  obtain ⟨-, ⟨q3, e3⟩, -⟩ := infoLine_fin _ _ _ _ c8
  cases x with
  | fin q => exact ⟨q, rfl⟩
  | pinf =>
    have e : (stats [F64.pinf]).2 = .pinf := by decide!
    rw [e] at e2; exact F64.noConfusion e2
  | ninf =>
    have e : (stats [F64.ninf]).1 = .ninf := by decide!
    rw [e] at e1; exact F64.noConfusion e1
  | nan =>
    have e : (stats [F64.nan]).1.mul usdtToCzk = .pinf := by decide!
    rw [e] at e3; exact F64.noConfusion e3

/-- The percent change in the words of the claim, on a non-empty history whose
sample, if it is the only one, is finite. -/
theorem pctOf_claim (xs : List F64) (h : xs ≠ []) (hs : ∀ x, xs = [x] → ∃ q, x = F64.fin q) :
    pctOf xs = if (xs.head h).eq (.fin 0) = true then .fin 0
      else pctFormula (xs.head h) (xs.getLast h) := by
  cases xs with
  | nil => exact absurd rfl h
  | cons x rest =>
    cases rest with
    | nil =>
      obtain ⟨q, rfl⟩ := hs x rfl
      have hsingle : pctOf [F64.fin q] = .fin 0 := by simp [pctOf]
      rw [hsingle]
      by_cases hq : q = 0
      · simp [List.head, F64.eq, hq]
      · simp [List.head, List.getLast, F64.eq, hq, pctFormula_self q hq]
    | cons y ys =>
      simp only [List.head]
      exact pctOf_two x y ys

/-- C4. PercentChange. The percent change computed by `render` (the lines
`pct := 0.0 ...`, here `pctOf`) is `0` on the empty history, `0` when the
first sample is `0`, and `0` on every single-sample history; on a history of
two or more samples whose first is not `0` it is `(last - first) / first * 100`
in `float64` arithmetic, and so it is on a single finite non-zero sample, where
that expression is `0` too. So on every non-empty history, a lone infinite or
NaN sample apart, it is `(last - first) / first * 100` if the first sample is
not `0` and `0` otherwise. `[100, 110]` gives `10` and `[0, 50]` gives `0`.
Whenever `render` returns a chart, the history is non-empty and the chart
carries `(last - first) / first * 100` if the first sample is not `0`, and `0`
otherwise (it does not return on a lone infinite or NaN sample); on the empty
history `render` shows the connecting placeholder. -/
theorem percent_change :
    pctOf [] = .fin 0 ∧
    (∀ (xs : List F64) (h : xs ≠ []), (xs.head h).eq (.fin 0) = true → pctOf xs = .fin 0) ∧
    (∀ x : F64, pctOf [x] = .fin 0) ∧
    (∀ (xs : List F64) (h : xs ≠ []), 2 ≤ xs.length → (xs.head h).eq (.fin 0) = false →
      pctOf xs = pctFormula (xs.head h) (xs.getLast h)) ∧
    (∀ q : ℚ, q ≠ 0 → pctOf [.fin q] = pctFormula (.fin q) (.fin q)) ∧
    (∀ (xs : List F64) (h : xs ≠ []), (∀ x, xs = [x] → ∃ q, x = F64.fin q) →
      pctOf xs = if (xs.head h).eq (.fin 0) = true then .fin 0
        else pctFormula (xs.head h) (xs.getLast h)) ∧
    pctOf [.fin 100, .fin 110] = .fin 10 ∧ pctOf [.fin 0, .fin 50] = .fin 0 ∧
    (∀ (Plot : Plotter) (m m1 : model) (c : Chart), render Plot m = some m1 →
      m1.content = .chart c →
      ∃ h : m.prices ≠ [], c.pct = pctOf m.prices ∧
        c.pct = if (m.prices.head h).eq (.fin 0) = true then .fin 0
          else pctFormula (m.prices.head h) (m.prices.getLast h)) ∧
    (∀ (Plot : Plotter) (m : model), m.prices = [] →
      ∃ m1, render Plot m = some m1 ∧ m1.content = .connecting) := by
  have hsingle : ∀ x : F64, pctOf [x] = .fin 0 := fun x => by simp [pctOf]
  refine ⟨by simp [pctOf], ?_, hsingle, ?_, ?_, pctOf_claim, by decide!, by decide!, ?_, ?_⟩
  · intro xs h h0
    cases xs with
    | nil => exact absurd rfl h
    | cons x rest =>
      cases rest with
      | nil => exact hsingle x
      | cons y ys =>
        have hx : x.eq (.fin 0) = true := h0
        rw [pctOf_two, if_pos hx]
  · intro xs h h2 h0
    cases xs with
    | nil => exact absurd rfl h
    | cons x rest =>
      cases rest with
      | nil => simp at h2
      | cons y ys =>
        have hx : ¬ x.eq (.fin 0) = true := by
          have : x.eq (.fin 0) = false := h0
          rw [this]; simp
        rw [pctOf_two, if_neg hx]
        rfl
  · intro q hq
    rw [hsingle, pctFormula_self q hq]
  · intro Plot m m1 c hr hc
    have hne : m.prices ≠ [] := by
      intro he
      rw [render_nil Plot m he] at hr
      rw [← Option.some.inj hr] at hc
      exact Content.noConfusion hc
    obtain ⟨-, -, -, -, -, c', e1, -, e3, -⟩ := render_some Plot m m1 hne hr
    rw [hc, Content.chart.injEq] at e1
    refine ⟨hne, by rw [e1, e3], ?_⟩
    rw [e1, e3]
    exact pctOf_claim m.prices hne (fun x hx => render_single_fin Plot m m1 x hx hr)
  · intro Plot m hm
    exact ⟨_, render_nil Plot m hm, rfl⟩

theorem drop_keeps_last_two (N : Nat) (hN : 2 ≤ N) (pre : List F64) (a b : F64) :
    ∃ pre1, (pre ++ [a, b]).drop ((pre ++ [a, b]).length - N) = pre1 ++ [a, b] := by
  refine ⟨pre.drop ((pre ++ [a, b]).length - N), ?_⟩
  rw [List.drop_append_of_le_length]
  simp only [List.length_append, List.length_cons, List.length_nil]
  omega

theorem trendOf_last_two (pre : List F64) (p q : ℚ) :
    trendOf (pre ++ [.fin p, .fin q]) (.fin q)
      = if p < q then Color.green else if q < p then Color.red else Color.white := by
  have h1 : (pre ++ [F64.fin p, .fin q]).length > 1 := by simp
  have h2 : (pre ++ [F64.fin p, .fin q]).getD ((pre ++ [F64.fin p, .fin q]).length - 2)
      (.fin 0) = .fin p := by
    have e : (pre ++ [F64.fin p, .fin q]).length - 2 = pre.length := by simp
    rw [e, List.getD_eq_getElem?_getD, List.getElem?_append_right (le_refl _)]
    simp
  unfold trendOf
  rw [if_pos h1]
  simp only [h2, F64.lt, decide_eq_true_eq]

/-- C5. Trend. In every model reached from `InitialModel` by the `PriceMsg` updates
for the samples `vs` (one or more), the stored `last` is the final element of
`prices` and is the last sample of `vs`, and the trend colour that `render`
chose for the chart screen compares the two most recently appended samples
`a` then `b`, which are finite: green (up) if `a < b`, red (down) if `b < a`,
white (neutral) if they are equal; with a single sample it is white. -/
theorem trend_compares_last_two (Plot : Plotter) (width height : Int) (vs : List F64)
    (hvs : vs ≠ []) (m : model)
    (hm : feed Plot (InitialModel width height) (vs.map Msg.PriceMsg) = some m) :
    ∃ c, m.content = .chart c ∧ m.last = vs.getLast hvs ∧
      m.prices.getLast? = some m.last ∧
      (∀ v, vs = [v] → c.trendColor = .white) ∧
      (∀ pre a b, vs = pre ++ [a, b] → ∃ p q : ℚ, a = .fin p ∧ b = .fin q ∧
        c.trendColor =
          if p < q then Color.green else if q < p then Color.red else Color.white) := by
  obtain ⟨f1, f2, f3⟩ := feed_prices Plot vs _ m hm
  have hp : m.prices = vs.drop (vs.length - maxPoints) := by
    have h := foldl_appendPrice vs (InitialModel width height) [] rfl
    rw [List.nil_append] at h
    rw [f1, h]
  have hl : m.last = vs.getLast hvs := by
    rw [f3 hvs, foldl_appendPrice_last vs hvs]
  -- the last call of `Update`
  obtain ⟨init, v, hiv⟩ : ∃ init v, vs = init ++ [v] :=
    ⟨vs.dropLast, vs.getLast hvs, (List.dropLast_append_getLast hvs).symm⟩
  have hv : vs.getLast hvs = v := by
    subst hiv; simp
  rw [hiv, List.map_append, feed_append] at hm
  cases h0 : feed Plot (InitialModel width height) (init.map Msg.PriceMsg) with
  | none => rw [h0] at hm; exact Option.noConfusion hm
  | some m0 =>
    rw [h0, Option.some_bind] at hm
    obtain ⟨r, r1, r2⟩ := feed_cons Plot m0 m _ _ hm
    have hr : r.1 = m := Option.some.inj r2
    obtain ⟨-, -, u3, -, c, c1, c2, -⟩ := Update_price Plot m0 v r r1
    rw [hr] at c1 c2
    refine ⟨c, c1, hl, ?_, ?_, ?_⟩
    · rw [hp, hl, List.getLast?_drop, if_neg (by
        have := List.length_pos.2 hvs
        simp only [maxPoints]; omega)]
      exact List.getLast?_eq_getLast _ hvs
    · intro x hx
      rw [c2, hp, hx]
      simp [trendOf, maxPoints]
    · intro pre a b hx
      obtain ⟨p, rfl⟩ := f2 a (by rw [hx]; simp)
      obtain ⟨q, rfl⟩ := f2 b (by rw [hx]; simp)
      have hb : v = .fin q := by
        rw [← hv]; subst hx; simp
      obtain ⟨pre1, hd⟩ := drop_keeps_last_two maxPoints (by decide) pre (.fin p) (.fin q)
      refine ⟨p, q, rfl, rfl, ?_⟩
      rw [c2, hp, hx, hd, hb]
      exact trendOf_last_two pre1 p q

/-! ## The session state machine -/

theorem Update_status (Plot : Plotter) (m : model) (s : String) :
    Update Plot m (.StatusMsg s)
      = some ({ m with content := .status (s ++ "\n\nPress q to quit.") }, .nil) := rfl

theorem deliver_some (Plot : Plotter) (s s1 : Session) (msg : Msg) (k : Nat) (cl : Bool)
    (h : s.deliver Plot msg k cl = some s1) :
    ∃ r, Update Plot s.m msg = some r ∧ s1.m = r.1 ∧
      s1.pending = s.pending - k + receives r.2 ∧
      s1.streamClosed = (s.streamClosed || cl) := by
  simp only [Session.deliver, Option.map_eq_some'] at h
  obtain ⟨r, h1, rfl⟩ := h
  exact ⟨r, h1, rfl, rfl, rfl⟩

theorem deliver_of_update (Plot : Plotter) (s : Session) (msg : Msg) (k : Nat) (cl : Bool)
    (r : model × Cmd) (h : Update Plot s.m msg = some r) :
    s.deliver Plot msg k cl = some (Session.mk r.1 (s.pending - k + receives r.2)
      (s.streamClosed || cl) (s.quit || decide (r.2 = .quit))) := by
  simp only [Session.deliver, h, Option.map_some']

/-- A message that is no sample: the command starts no receive. -/
theorem deliver_other (Plot : Plotter) (s s1 : Session) (msg : Msg) (k : Nat) (cl : Bool)
    (hmsg : ∀ v, msg ≠ .PriceMsg v) (h : s.deliver Plot msg k cl = some s1) :
    s1.pending = s.pending - k ∧ s1.streamClosed = (s.streamClosed || cl) ∧
      s1.m.prices = s.m.prices ∧ s1.m.last = s.m.last := by
  obtain ⟨r, h1, h2, h3, h4⟩ := deliver_some Plot s s1 msg k cl h
  obtain ⟨e1, e2, e3⟩ := Update_other Plot s.m msg hmsg r h1
  exact ⟨by rw [h3, e3, Nat.add_zero], h4, by rw [h2, e1], by rw [h2, e2]⟩

theorem deliver_price (Plot : Plotter) (s s1 : Session) (v : F64) (k : Nat) (cl : Bool)
    (h : s.deliver Plot (.PriceMsg v) k cl = some s1) :
    s1.pending = s.pending - k + 1 ∧ s1.streamClosed = (s.streamClosed || cl) := by
  obtain ⟨r, h1, -, h3, h4⟩ := deliver_some Plot s s1 _ k cl h
  obtain ⟨e1, -⟩ := Update_price Plot s.m v r h1
  exact ⟨by rw [h3, e1]; rfl, h4⟩

theorem step_inv (Plot : Plotter) (s s1 : Session) (e : Event) (hs : s.Inv)
    (h : s.step Plot e = some s1) :
    s1.Inv ∧ (s.streamClosed = true → s1.streamClosed = true ∧ s1.m.prices = s.m.prices ∧
      s1.m.last = s.m.last) := by
  unfold Session.step at h
  by_cases hq : s.quit = true
  · rw [if_pos hq] at h
    rw [← Option.some.inj h]
    exact ⟨hs, fun hc => ⟨hc, rfl, rfl⟩⟩
  rw [if_neg hq] at h
  cases e with
  | resize w h' =>
    obtain ⟨h2, h3, h4, h5⟩ :=
      deliver_other Plot s s1 (.WindowSizeMsg w h') 0 false (fun v hv => Msg.noConfusion hv) h
    refine ⟨?_, fun hc => ⟨by rw [h3, hc]; rfl, h4, h5⟩⟩
    unfold Session.Inv
    rw [h2, h3, Bool.or_false, Nat.sub_zero]
    exact hs
  | key k =>
    obtain ⟨h2, h3, h4, h5⟩ :=
      deliver_other Plot s s1 (.KeyMsg k) 0 false (fun v hv => Msg.noConfusion hv) h
    refine ⟨?_, fun hc => ⟨by rw [h3, hc]; rfl, h4, h5⟩⟩
    unfold Session.Inv
    rw [h2, h3, Bool.or_false, Nat.sub_zero]
    exact hs
  | received r =>
    by_cases hp : s.pending = 0
    · simp only [hp, if_true] at h
      rw [← Option.some.inj h]
      exact ⟨hs, fun hc => ⟨hc, rfl, rfl⟩⟩
    · simp only [hp, if_false] at h
      have hnc : ¬ s.streamClosed = true := fun hc => hp (hs.2 hc)
      have hp1 : s.pending = 1 := by have := hs.1; omega
      cases r with
      | none =>
        obtain ⟨h2, -⟩ := deliver_other Plot s s1 (.StatusMsg "stream closed") 1
          true (fun v hv => Msg.noConfusion hv) h
        refine ⟨?_, fun hc => absurd hc hnc⟩
        unfold Session.Inv
        rw [h2, hp1]
        exact ⟨by decide, fun _ => rfl⟩
      | some v =>
        obtain ⟨h2, h3⟩ := deliver_price Plot s s1 v 1 false h
        refine ⟨?_, fun hc => absurd hc hnc⟩
        unfold Session.Inv
        rw [h2, h3, hp1, Bool.or_false]
        exact ⟨by decide, fun hc => absurd hc hnc⟩

theorem run_inv (Plot : Plotter) (es : List Event) : ∀ s s1 : Session, s.Inv →
    s.run Plot es = some s1 →
    s1.Inv ∧ (s.streamClosed = true → s1.streamClosed = true ∧ s1.m.prices = s.m.prices ∧
      s1.m.last = s.m.last) := by
  induction es with
  | nil =>
    intro s s1 hs h
    rw [← Option.some.inj h]
    exact ⟨hs, fun hc => ⟨hc, rfl, rfl⟩⟩
  | cons e rest ih =>
    intro s s2 hs h
    rw [Session.run] at h
    cases h1 : s.step Plot e with
    | none => rw [h1] at h; exact Option.noConfusion h
    | some s1 =>
      rw [h1, Option.some_bind] at h
      obtain ⟨i1, i2⟩ := step_inv Plot s s1 e hs h1
      obtain ⟨g1, g2⟩ := ih s1 s2 i1 h
      refine ⟨g1, fun hc => ?_⟩
      obtain ⟨a1, a2, a3⟩ := i2 hc
      obtain ⟨b1, b2, b3⟩ := g2 a1
      exact ⟨b1, b2.trans a2, b3.trans a3⟩

/-- A step does not panic when the samples held and the sample arriving can be
shown and the plot returns. -/
theorem step_total (Plot : Plotter) (hP : Plot.Total) (s : Session) (e : Event)
    (hs : s.m.Showable) (he : e.Displayable = true) :
    ∃ s1, s.step Plot e = some s1 ∧ s1.m.Showable := by
  unfold Session.step
  by_cases hq : s.quit = true
  · rw [if_pos hq]; exact ⟨s, rfl, hs⟩
  rw [if_neg hq]
  have hother : ∀ (msg : Msg) (k : Nat) (cl : Bool), (∀ v, msg ≠ .PriceMsg v) →
      ∃ s1, s.deliver Plot msg k cl = some s1 ∧ s1.m.Showable := by
    intro msg k cl hmsg
    obtain ⟨r, h1, h2⟩ := Update_other_total Plot hP s.m msg hmsg hs
    exact ⟨_, deliver_of_update Plot s msg k cl r h1, h2⟩
  cases e with
  | resize w h' => exact hother _ _ _ (fun v hv => Msg.noConfusion hv)
  | key k => exact hother _ _ _ (fun v hv => Msg.noConfusion hv)
  | received r =>
    by_cases hp : s.pending = 0
    · simp only [hp, if_true]; exact ⟨s, rfl, hs⟩
    · simp only [hp, if_false]
      cases r with
      | none => exact hother _ _ _ (fun v hv => Msg.noConfusion hv)
      | some v =>
        obtain ⟨m1, h1, h2⟩ := Update_price_total Plot hP s.m v hs he
        exact ⟨_, deliver_of_update Plot s _ 1 _ _ h1, h2⟩

theorem run_total (Plot : Plotter) (hP : Plot.Total) (es : List Event)
    (he : ∀ e ∈ es, e.Displayable = true) : ∀ s : Session, s.m.Showable →
    ∃ s1, s.run Plot es = some s1 := by
  induction es with
  | nil => intro s _; exact ⟨s, rfl⟩
  | cons e rest ih =>
    intro s hs
    obtain ⟨s1, h1, h2⟩ := step_total Plot hP s e hs (he e (List.mem_cons_self _ _))
    obtain ⟨s2, h3⟩ := ih (fun x hx => he x (List.mem_cons_of_mem _ hx)) s1 h2
    exact ⟨s2, by simp only [Session.run, h1, Option.some_bind, h3]⟩

/-- C8. Consumption discipline. `Init` issues exactly one receive command; `Update`
on a `PriceMsg`, whenever it returns, issues exactly one, and it returns when
the samples can be shown and the plot returns; `Update` on a `StatusMsg` and
on a resize always returns and issues none, on the help key it issues none,
and on a `StatusMsg` it leaves `prices` and `last` unchanged. Hence in every
session state reachable from the start at most one receive is outstanding, and
none once the stream is closed; the closed-channel result of the outstanding
receive closes the stream; and from a reachable state with the stream closed
every further run keeps it closed with no receive outstanding and with
`prices` and `last` unchanged. Every run whose samples can be shown reaches a
state, as long as the plot returns. -/
theorem consumption_discipline (Plot : Plotter) :
    (∀ m : model, receives (Init m) = 1) ∧
    (∀ (m : model) (v : F64) (r : model × Cmd), Update Plot m (.PriceMsg v) = some r →
      receives r.2 = 1) ∧
    (Plot.Total → ∀ (m : model) (v : F64), m.Showable → Displayable v = true →
      ∃ m1, Update Plot m (.PriceMsg v) = some (m1, .awaitPrice)) ∧
    (∀ (m : model) (t : String), ∃ m1 c, Update Plot m (.StatusMsg t) = some (m1, c) ∧
      receives c = 0 ∧ m1.prices = m.prices ∧ m1.last = m.last) ∧
    (∀ (m : model) (w h : Int), ∃ m1 c, Update Plot m (.WindowSizeMsg w h) = some (m1, c) ∧
      receives c = 0) ∧
    (∀ (m : model) (r : model × Cmd), Update Plot m (.KeyMsg "?") = some r →
      receives r.2 = 0) ∧
    (∀ (w h : Int) (es : List Event) (s : Session),
      (Session.start w h).run Plot es = some s →
      s.pending ≤ 1 ∧ (s.streamClosed = true → s.pending = 0)) ∧
    (∀ (w h : Int) (es : List Event) (s : Session),
      (Session.start w h).run Plot es = some s → s.quit = false → s.pending = 1 →
      ∃ s1, s.step Plot (.received none) = some s1 ∧ s1.streamClosed = true ∧
        s1.pending = 0 ∧ s1.m.prices = s.m.prices ∧ s1.m.last = s.m.last) ∧
    (∀ (w h : Int) (es more : List Event) (s s1 : Session),
      (Session.start w h).run Plot es = some s → s.streamClosed = true →
      s.run Plot more = some s1 →
      s1.streamClosed = true ∧ s1.pending = 0 ∧ s1.m.prices = s.m.prices ∧
        s1.m.last = s.m.last) ∧
    (Plot.Total → ∀ (w h : Int) (es : List Event), (∀ e ∈ es, e.Displayable = true) →
      ∃ s, (Session.start w h).run Plot es = some s) := by
  have hstart : ∀ w h : Int, (Session.start w h).Inv := fun w h =>
    ⟨le_refl 1, fun hc => Bool.noConfusion hc⟩
  refine ⟨fun _ => rfl, ?_, ?_, ?_, ?_, ?_, ?_, ?_, ?_, ?_⟩
  · intro m v r hr
    rw [(Update_price Plot m v r hr).1]; rfl
  · intro hP m v hm hv
    obtain ⟨m1, h1, -⟩ := Update_price_total Plot hP m v hm hv
    exact ⟨m1, h1⟩
  · intro m t
    exact ⟨_, _, Update_status Plot m t, rfl, rfl, rfl⟩
  · intro m w h
    exact ⟨_, _, rfl, rfl⟩
  · intro m r hr
    exact (Update_other Plot m _ (fun v hv => Msg.noConfusion hv) r hr).2.2
  · intro w h es s hs
    exact (run_inv Plot es _ s (hstart w h) hs).1
  · intro w h es s _ hq hp
    have hd : ∃ s1, s.deliver Plot (.StatusMsg "stream closed") 1 true = some s1 :=
      ⟨_, deliver_of_update Plot s _ 1 true _ (Update_status Plot s.m _)⟩
    obtain ⟨s1, h1⟩ := hd
    obtain ⟨h2, h3, h4, h5⟩ := deliver_other Plot s s1 _ 1 true
      (fun v hv => Msg.noConfusion hv) h1
    refine ⟨s1, ?_, by rw [h3]; simp, by rw [h2, hp], h4, h5⟩
    simp only [Session.step, hq, hp, awaitPrice, Option.isNone_none]
    simpa using h1
  · intro w h es more s s1 hs hc hmore
    have hinv : s.Inv := (run_inv Plot es _ s (hstart w h) hs).1
    obtain ⟨h2, h3⟩ := run_inv Plot more s s1 hinv hmore
    obtain ⟨a1, a2, a3⟩ := h3 hc
    exact ⟨a1, h2.2 a1, a2, a3⟩
  · intro hP w h es he
    exact run_total Plot hP es he _ (InitialModel_showable w h)

/-! ## The stream reader and its channel -/

theorem run_append (a b : List Step) : ∀ s : Sys, s.run (a ++ b) = (s.run a).run b := by
  induction a with
  | nil => intro s; rfl
  | cons x xs ih => intro s; exact ih _

theorem failTrace_spec (n : Nat) :
    (Sys.init.run (failTrace n)).phase = .sleeping (backoff (n + 1)) ∧
    (Sys.init.run (failTrace n)).retry = n + 1 ∧
    (Sys.init.run (failTrace n)).cancelled = false := by
  induction n with
  | zero => exact ⟨rfl, rfl, rfl⟩
  | succ k ih =>
    obtain ⟨h1, h2, h3⟩ := ih
    rw [failTrace, run_append]
    generalize Sys.init.run (failTrace k) = s at h1 h2 h3
    simp [Sys.run, Sys.step, WsReader, h1, h2, h3, selectCase]

theorem sendSelect_cases (s : Sys) (v : ℚ) (pick : Nat) :
    (sendSelect s v pick = { s with offered := s.offered ++ [v], buf := s.buf ++ [v] } ∧
      s.buf.length < chanCap) ∨
    (sendSelect s v pick = Sys.ret { s with offered := s.offered ++ [v] } ∧
      s.cancelled = true) ∨
    (sendSelect s v pick = { s with offered := s.offered ++ [v] } ∧
      ¬ s.buf.length < chanCap ∧ s.cancelled = false) := by
  by_cases hroom : s.buf.length < chanCap
  · cases hc : s.cancelled with
    | false =>
      left
      refine ⟨?_, hroom⟩
      simp [sendSelect, hroom, hc, selectCase, Nat.mod_one]
    | true =>
      rcases Nat.mod_two_eq_zero_or_one pick with hp | hp
      · left
        refine ⟨?_, hroom⟩
        simp [sendSelect, hroom, hc, selectCase, hp]
      · right; left
        refine ⟨?_, rfl⟩
        simp [sendSelect, hroom, hc, selectCase, hp]
  · cases hc : s.cancelled with
    | false =>
      right; right
      refine ⟨?_, hroom, rfl⟩
      simp [sendSelect, hroom, hc, selectCase]
    | true =>
      right; left
      refine ⟨?_, rfl⟩
      simp [sendSelect, hroom, hc, selectCase, Nat.mod_one]

theorem sendSelect_inv (s : Sys) (v : ℚ) (pick : Nat) (h : s.Inv) :
    (sendSelect s v pick).Inv ∧ (sendSelect s v pick).offered = s.offered ++ [v] := by
  obtain ⟨h1, h2⟩ := h
  rcases sendSelect_cases s v pick with ⟨e, hr⟩ | ⟨e, -⟩ | ⟨e, -⟩ <;> rw [e]
  · refine ⟨⟨?_, ?_⟩, rfl⟩
    · simp only [List.length_append, List.length_singleton]
      exact hr
    · show (s.observed ++ (s.buf ++ [v])).Sublist (s.offered ++ [v])
      rw [← List.append_assoc]
      exact List.Sublist.append h2 (List.Sublist.refl _)
  · exact ⟨⟨h1, h2.trans (List.sublist_append_left _ _)⟩, rfl⟩
  · exact ⟨⟨h1, h2.trans (List.sublist_append_left _ _)⟩, rfl⟩

theorem WsReader_inv (s : Sys) (e : Step) (h : s.Inv) : (WsReader s e).Inv := by
  cases e with
  | cancel => exact h
  | receive => exact h
  | dial ok =>
    simp only [WsReader]
    split_ifs <;> exact h
  | wake fired pick =>
    simp only [WsReader]
    split
    · split <;> exact h
    · exact h
  | frame r pick =>
    simp only [WsReader]
    by_cases hp : s.phase = .reading
    · rw [if_pos hp]
      match r with
      | none => dsimp only; split_ifs <;> exact h
      | some none => exact h
      | some (some v) => exact (sendSelect_inv s v pick h).1
    · rw [if_neg hp]; exact h

theorem step_inv6 (s : Sys) (e : Step) (h : s.Inv) : (s.step e).Inv := by
  cases e with
  | cancel => exact h
  | receive =>
    unfold Sys.step
    cases hb : s.buf with
    | nil => simpa [hb] using h
    | cons v rest =>
      obtain ⟨h1, h2⟩ := h
      rw [hb] at h1 h2
      refine ⟨?_, ?_⟩
      · simp only [List.length_cons] at h1 ⊢; omega
      · simpa using h2
  | dial ok => exact WsReader_inv s _ h
  | wake fired pick => exact WsReader_inv s _ h
  | frame r pick => exact WsReader_inv s _ h

theorem run_inv6 (steps : List Step) : ∀ s : Sys, s.Inv → (s.run steps).Inv := by
  induction steps with
  | nil => intro s h; exact h
  | cons e rest ih => intro s h; exact ih _ (step_inv6 s e h)

/-- C2, counterexample. After the fifth consecutive connect failure the delay is 30
seconds, not 32: `1 << 5 = 32` is capped by `min(30, ...)`, so the delays for
`r = 1, ..., 8` are not `2, 4, 8, 16, 32, 30, 30, 30`. -/
theorem backoff_fifth :
    backoff 5 = 30 ∧
    [1, 2, 3, 4, 5, 6, 7, 8].map backoff ≠ [2, 4, 8, 16, 32, 30, 30, 30] ∧
    (Sys.init.run (failTrace 4)).phase = .sleeping 30 := by
  refine ⟨by decide, by decide, by decide⟩

/-- C2, as amended. For consecutive connect failures `r = 1, ..., 8` (the value of
`retry` after its increment) the delay in seconds computed by `WsReader` is
`2, 4, 8, 16, 30, 30, 30, 30`; in general it is `min 30 (2 ^ min 6 r)`, and after
`n + 1` consecutive failed dials the reader sleeps for `backoff (n + 1)` seconds. -/
theorem backoff_sequence :
    [1, 2, 3, 4, 5, 6, 7, 8].map backoff = [2, 4, 8, 16, 30, 30, 30, 30] ∧
    (∀ r, backoff r = min 30 (2 ^ min 6 r)) ∧
    (∀ n, (Sys.init.run (failTrace n)).phase = .sleeping (backoff (n + 1)) ∧
      (Sys.init.run (failTrace n)).retry = n + 1) := by
  refine ⟨by decide, ?_, fun n => ⟨(failTrace_spec n).1, (failTrace_spec n).2.1⟩⟩
  intro r
  simp [backoff, Nat.shiftLeft_eq]

/-- C6. Backpressure. After any sequence of steps of the reader, its context and
the consumer, starting from an empty channel, the queue holds at most 256
samples and the samples observed by the consumer, followed by the queued ones,
are an order-preserving subsequence of the samples offered by the send steps
(so at most as many are observed as were offered). Every send step completes
and records its sample as offered, and while the context is not cancelled it
appends the sample when there is room and otherwise leaves the queue unchanged,
dropping the new sample. -/
theorem backpressure (steps : List Step) :
    (Sys.init.run steps).buf.length ≤ 256 ∧
    ((Sys.init.run steps).observed ++ (Sys.init.run steps).buf).Sublist
      (Sys.init.run steps).offered ∧
    (Sys.init.run steps).observed.Sublist (Sys.init.run steps).offered ∧
    (Sys.init.run steps).observed.length ≤ (Sys.init.run steps).offered.length ∧
    (∀ (s : Sys) (v : ℚ) (pick : Nat), (sendSelect s v pick).offered = s.offered ++ [v]) ∧
    (∀ (s : Sys) (v : ℚ) (pick : Nat), s.cancelled = false →
      sendSelect s v pick =
        if s.buf.length < 256 then { s with offered := s.offered ++ [v], buf := s.buf ++ [v] }
        else { s with offered := s.offered ++ [v] }) := by
  have hinit : Sys.init.Inv := ⟨Nat.zero_le _, List.Sublist.refl _⟩
  obtain ⟨h1, h2⟩ := run_inv6 steps Sys.init hinit
  have h3 : (Sys.init.run steps).observed.Sublist (Sys.init.run steps).offered :=
    (List.sublist_append_left _ _).trans h2
  refine ⟨h1, h2, h3, h3.length_le, ?_, ?_⟩
  · intro s v pick
    rcases sendSelect_cases s v pick with ⟨e, -⟩ | ⟨e, -⟩ | ⟨e, -⟩
    · rw [e]
    · rw [e]; rfl
    · rw [e]
  · intro s v pick hc
    rcases sendSelect_cases s v pick with ⟨e, hr⟩ | ⟨e, hd⟩ | ⟨e, hr, -⟩
    · rw [e, if_pos (show s.buf.length < 256 from hr)]
    · rw [hc] at hd; exact Bool.noConfusion hd
    · rw [e, if_neg (show ¬ s.buf.length < 256 from hr)]

/-- Where cancellation does stop the reader: a send step on a full channel, a read
error, and a backoff sleep whose timer has not expired. -/
theorem cancel_stops_elsewhere (s : Sys) (hc : s.cancelled = true) :
    (∀ (v : ℚ) (pick : Nat), chanCap ≤ s.buf.length →
      (sendSelect s v pick).phase = .returned ∧ (sendSelect s v pick).closed = true ∧
        (sendSelect s v pick).buf = s.buf) ∧
    (∀ pick : Nat, s.phase = .reading → WsReader s (.frame none pick) = s.ret) ∧
    (∀ (pick seconds : Nat), s.phase = .sleeping seconds →
      WsReader s (.wake false pick) = s.ret) := by
  refine ⟨?_, ?_, ?_⟩
  · intro v pick hfull
    rcases sendSelect_cases s v pick with ⟨-, hr⟩ | ⟨e, -⟩ | ⟨-, -, hn⟩
    · omega
    · rw [e]; exact ⟨rfl, rfl, rfl⟩
    · rw [hc] at hn; exact Bool.noConfusion hn
  · intro pick hp
    simp [WsReader, hp, hc]
  · intro pick seconds hp
    simp [WsReader, hp, hc, selectCase, Nat.mod_one]

/-- C7, the code after cancellation. The reader connects, the context is cancelled
while the channel is empty, then a frame with price `1` arrives: both
`case out <- v` and `case <-ctx.Done()` can proceed, and when `select` picks
the first the sample is placed on the channel and the reader goes on reading. -/
theorem emission_after_cancel :
    (Sys.init.run [.dial true, .cancel]).cancelled = true ∧
    (Sys.init.run [.dial true, .cancel]).buf = [] ∧
    (Sys.init.run [.dial true, .cancel, .frame (some (some 1)) 0]).buf = [1] ∧
    (Sys.init.run [.dial true, .cancel, .frame (some (some 1)) 0]).phase = .reading := by
  decide

/-! ## Concrete instances -/

theorem plotBlank_total : plotBlank.Total := fun _ _ _ _ _ => ⟨[], rfl⟩

/-- The panics of `render`: the finite sample `2^1023` times 21 overflows to
`+Inf`, which is rendered `+Inf` and has no decimal part; an infinite or NaN
sample fails the same way. -/
theorem overflow_panics :
    feed plotBlank (InitialModel 80 24) [.PriceMsg (.fin 0), .PriceMsg (.fin (2 ^ 1023))]
      = none ∧
    (F64.fin (2 ^ 1023)).mul usdtToCzk = .pinf ∧
    F64.pinf.FormatFloatWithSpaces = none ∧
    feed plotBlank (InitialModel 80 24) [.PriceMsg .pinf] = none ∧
    feed plotBlank (InitialModel 80 24) [.PriceMsg .nan] = none := by
  decide!

/-- The rounding at some telling values: `0.1` and `-1/3`, the two sides of the
overflow threshold, the overflow of `2^1023 * 21`, the smallest subnormals, and
ties just above `2^53`. -/
theorem roundF64_examples :
    roundF64 (1 / 10) = .fin (3602879701896397 / 36028797018963968) ∧
    roundF64 (-(1 / 3)) = .fin (-(6004799503160661 / 18014398509481984)) ∧
    roundF64 (MaxFloat64 + 2 ^ 969) = .fin MaxFloat64 ∧
    roundF64 (MaxFloat64 + 2 ^ 970) = .pinf ∧
    roundF64 (2 ^ 1023 * 21) = .pinf ∧
    roundF64 (1 / 2 ^ 1075) = .fin 0 ∧
    roundF64 (3 / 2 ^ 1075) = .fin (1 / 2 ^ 1073) ∧
    roundF64 (2 ^ 53 + 1) = .fin (2 ^ 53) ∧
    roundF64 (2 ^ 53 + 3) = .fin (2 ^ 53 + 4) := by
  decide!

/-- Instance of C1: of 2000 samples the last 1800 are kept. -/
theorem history_bound_witness :
    ∃ m, feed plotBlank (InitialModel 80 24)
        ((List.replicate 2000 (F64.fin 5)).map Msg.PriceMsg) = some m ∧
      m.prices.length = 1800 := by
  have h := history_bound plotBlank 80 24 (List.replicate 2000 (F64.fin 5))
  have hd : ∀ v ∈ List.replicate 2000 (F64.fin 5), Displayable v = true := by
    intro v hv
    rw [List.eq_of_mem_replicate hv]
    decide!
  obtain ⟨m, hm⟩ := h.2.2.2.1 plotBlank_total hd
  exact ⟨m, hm, by rw [(h.2.2.1 m hm).1, List.length_replicate]; decide⟩

/-- Witness for C3 at the samples `3, 1, 2`. -/
theorem stats_min_max_witness :
    ([.fin 3, .fin 1, .fin 2] : List F64) ≠ [] ∧
      (∀ x ∈ ([.fin 3, .fin 1, .fin 2] : List F64), FiniteSample x) ∧
      stats [.fin 3, .fin 1, .fin 2] = (.fin 1, .fin 3) ∧
      (F64.fin 3).sub (.fin 1) = .fin 2 ∧
      ∃ lo hi : ℚ, stats [.fin 3, .fin 1, .fin 2] = (.fin lo, .fin hi) ∧
        F64.fin lo ∈ ([.fin 3, .fin 1, .fin 2] : List F64) ∧
        F64.fin hi ∈ ([.fin 3, .fin 1, .fin 2] : List F64) :=
  have h1 : ([.fin 3, .fin 1, .fin 2] : List F64) ≠ [] := by simp
  have h2 : ∀ x ∈ ([.fin 3, .fin 1, .fin 2] : List F64), FiniteSample x := by
    intro x hx
    simp only [List.mem_cons, List.mem_singleton, List.not_mem_nil, or_false] at hx
    rcases hx with rfl | rfl | rfl
    · exact ⟨3, rfl, by norm_num [MaxFloat64], by norm_num [MaxFloat64]⟩
    · exact ⟨1, rfl, by norm_num [MaxFloat64], by norm_num [MaxFloat64]⟩
    · exact ⟨2, rfl, by norm_num [MaxFloat64], by norm_num [MaxFloat64]⟩
  have h := (stats_min_max [.fin 3, .fin 1, .fin 2] h1 h2).2
  ⟨h1, h2, by decide!, by decide!, h.imp fun lo h => h.imp fun hi h => ⟨h.1, h.2.1, h.2.2.1⟩⟩

/-- Witness for C4: the histories `[100, 110]`, `[0, 50]` and `[7]`, the rounding
of `[1000, 1000.25]`, which shows as `0.03`, and a chart returned by `render`. -/
theorem percent_change_witness :
    pctOf [.fin 100, .fin 110] = pctFormula (.fin 100) (.fin 110) ∧
    pctOf [.fin 0, .fin 50] = .fin 0 ∧ pctOf [.fin 7] = .fin 0 ∧
    (pctOf [.fin 1000, .fin 1000.25]).Sprintf2f = "0.03".toList ∧
    ∃ m1 c, render plotBlank
        { prices := [.fin 100, .fin 110], last := .fin 110, vpWidth := 80, vpHeight := 24,
          content := .empty, showHelp := false } = some m1 ∧
      m1.content = .chart c ∧ c.pct = .fin 10 := by
  refine ⟨percent_change.2.2.2.1 [.fin 100, .fin 110] (by simp) (by simp) (by decide!),
    percent_change.2.1 [.fin 0, .fin 50] (by simp) (by decide!),
    percent_change.2.2.1 (.fin 7), by decide!, ?_⟩
  have hr : ∃ m1, render plotBlank
      { prices := [.fin 100, .fin 110], last := .fin 110, vpWidth := 80, vpHeight := 24,
        content := .empty, showHelp := false } = some m1 :=
    render_showable plotBlank plotBlank_total _ ⟨by decide!, by decide!⟩
  obtain ⟨m1, h1⟩ := hr
  obtain ⟨-, -, -, -, -, c, c1, -, c3, -⟩ := render_some plotBlank _ m1 (by simp) h1
  exact ⟨m1, c, h1, c1, by rw [c3]; decide!⟩

/-- Witness for C5: `(100, 105)` is up, `(105, 100)` is down, `(100, 100)` and a
single sample are neutral. -/
theorem trend_witness :
    (∃ m c, feed plotBlank (InitialModel 80 24) [.PriceMsg (.fin 100), .PriceMsg (.fin 105)]
        = some m ∧ m.content = .chart c ∧ c.trendColor = .green) ∧
    (∃ m c, feed plotBlank (InitialModel 80 24) [.PriceMsg (.fin 105), .PriceMsg (.fin 100)]
        = some m ∧ m.content = .chart c ∧ c.trendColor = .red) ∧
    (∃ m c, feed plotBlank (InitialModel 80 24) [.PriceMsg (.fin 100), .PriceMsg (.fin 100)]
        = some m ∧ m.content = .chart c ∧ c.trendColor = .white) ∧
    (∃ m c, feed plotBlank (InitialModel 80 24) [.PriceMsg (.fin 100)] = some m ∧
      m.content = .chart c ∧ c.trendColor = .white) := by
  have hfeed : ∀ vs : List F64, (∀ v ∈ vs, Displayable v = true) →
      ∃ m, feed plotBlank (InitialModel 80 24) (vs.map Msg.PriceMsg) = some m :=
    fun vs hv => feed_total plotBlank plotBlank_total vs hv _ (InitialModel_showable 80 24)
  refine ⟨?_, ?_, ?_, ?_⟩
  · obtain ⟨m, hm⟩ := hfeed [.fin 100, .fin 105] (by decide!)
    obtain ⟨c, h2, -, -, -, h6⟩ :=
      trend_compares_last_two plotBlank 80 24 [.fin 100, .fin 105] (by simp) m hm
    obtain ⟨p, q, hp, hq, hc⟩ := h6 [] (.fin 100) (.fin 105) rfl
    rw [F64.fin.injEq] at hp hq
    exact ⟨m, c, hm, h2, by rw [hc, ← hp, ← hq]; norm_num⟩
  · obtain ⟨m, hm⟩ := hfeed [.fin 105, .fin 100] (by decide!)
    obtain ⟨c, h2, -, -, -, h6⟩ :=
      trend_compares_last_two plotBlank 80 24 [.fin 105, .fin 100] (by simp) m hm
    obtain ⟨p, q, hp, hq, hc⟩ := h6 [] (.fin 105) (.fin 100) rfl
    rw [F64.fin.injEq] at hp hq
    exact ⟨m, c, hm, h2, by rw [hc, ← hp, ← hq]; norm_num⟩
  · obtain ⟨m, hm⟩ := hfeed [.fin 100, .fin 100] (by decide!)
    obtain ⟨c, h2, -, -, -, h6⟩ :=
      trend_compares_last_two plotBlank 80 24 [.fin 100, .fin 100] (by simp) m hm
    obtain ⟨p, q, hp, hq, hc⟩ := h6 [] (.fin 100) (.fin 100) rfl
    rw [F64.fin.injEq] at hp hq
    exact ⟨m, c, hm, h2, by rw [hc, ← hp, ← hq]; norm_num⟩
  · obtain ⟨m, hm⟩ := hfeed [.fin 100] (by decide!)
    obtain ⟨c, h2, -, -, h5, -⟩ :=
      trend_compares_last_two plotBlank 80 24 [.fin 100] (by simp) m hm
    exact ⟨m, c, hm, h2, h5 (.fin 100) rfl⟩

/-- Witness for C8: a run in which the stream closes after one sample. -/
theorem consumption_discipline_witness :
    ∃ s, (Session.start 80 24).run plotBlank
        [.received (some (.fin 1)), .resize 100 30, .received none, .key "?",
          .received (some (.fin 5))] = some s ∧
      s.pending = 0 ∧ s.streamClosed = true ∧ s.m.prices = [.fin 1] ∧ s.pending ≤ 1 := by
  obtain ⟨s, h1⟩ := (consumption_discipline plotBlank).2.2.2.2.2.2.2.2.2 plotBlank_total 80 24
    [.received (some (.fin 1)), .resize 100 30, .received none, .key "?",
      .received (some (.fin 5))] (by decide!)
  have h2 := ((consumption_discipline plotBlank).2.2.2.2.2.2.1 80 24 _ s h1).1
  have e : ((Session.start 80 24).run plotBlank
      [.received (some (.fin 1)), .resize 100 30, .received none, .key "?",
        .received (some (.fin 5))]).map
        (fun s => (s.pending, s.streamClosed, s.m.prices)) = some (0, true, [.fin 1]) := by
    decide!
  rw [h1] at e
  simp only [Option.map_some', Option.some.injEq, Prod.mk.injEq] at e
  exact ⟨s, h1, e.1, e.2.1, e.2.2, h2⟩

/-- Witness for C6: of 300 samples offered to a channel nobody reads, 256 are queued. -/
theorem backpressure_witness :
    (Sys.init.run (.dial true :: List.replicate 300 (.frame (some (some 1)) 0))).buf.length
      ≤ 256 ∧
    (Sys.init.run (.dial true :: List.replicate 300 (.frame (some (some 1)) 0))).buf.length
      = 256 ∧
    (Sys.init.run (.dial true :: List.replicate 300 (.frame (some (some 1)) 0))).offered.length
      = 300 :=
  ⟨(backpressure _).1, by decide!, by decide!⟩

/-- Witness for C9: `1234567.891` gives `1 234 567.89` and `999` gives `999.00`. -/
theorem thousands_groups_witness :
    (0 : ℚ) ≤ 1234567.891 ∧
    FormatFloatWithSpaces 1234567.891 = some "1 234 567.89".toList ∧
    FormatFloatWithSpaces 999 = some "999.00".toList ∧
    ∃ D dd G, Sprintf2f 1234567.891 = D ++ '.' :: dd ∧
      FormatFloatWithSpaces 1234567.891 = some (G ++ '.' :: dd) ∧
      G.filter (fun c => c != ' ') = D := by
  have h0 : (0 : ℚ) ≤ 1234567.891 := by norm_num
  obtain ⟨D, dd, G, h1, -, -, -, -, h6, h7, -⟩ := thousands_groups 1234567.891 h0
  exact ⟨h0, by decide!, by decide!, D, dd, G, h1, h6, h7⟩

/-- C10, the code at negative values: `-123.45` is formatted as `- 123.45` and `-123456.78` as `- 123 456.78`, with a space between the minus sign and the first digit, because the loop counts the sign as a digit; `-1234.5` gives `-1 234.50`. -/
theorem negative_sign_detached :
    FormatFloatWithSpaces (-123.45) = some "- 123.45".toList ∧
    FormatFloatWithSpaces (-123456.78) = some "- 123 456.78".toList ∧
    FormatFloatWithSpaces 123.45 = some "123.45".toList ∧
    FormatFloatWithSpaces (-1234.5) = some "-1 234.50".toList := by
  decide!

end CryptoSSHEye
